import Mathlib

/-!
# gorets: the compact-format decoder of `client/common.go` and `metadata.go`

A shallow embedding of the RETS response decoder: the envelope attributes
(`ParseRetsResponseTag`), the delimiter resolver (`ParseDelimiterTag`), the
compact row splitter (`ParseCompactRow`), the record assembler (`extractMap`,
`ParseMetadataCompactDecoded`) and the column index (`Indexer`).

Conventions of the embedding

* A Go `string` is a sequence of bytes: `Str = List Byte`, `Byte = Fin 256`.
* A Go function that can panic (index out of range, slice bounds out of range,
  negative `Repeat` count) returns an `Option`; `none` is the run-time panic.
* A Go function returning `(T, error)` returns the pair, the error being
  `Option GoError` with `none` for `nil`.
* A pointer result `*T` that may be `nil` is an `Option T`.
-/

namespace Gorets

/-! ## Strings -/

/-- One byte of a Go string. -/
abbrev Byte := Fin 256

/-- A Go string: an immutable sequence of bytes. -/
abbrev Str := List Byte

/-- UTF-8 encoding of one code point, the way a Go source literal is stored. -/
def utf8Encode (c : Char) : Str :=
  let n := c.toNat
  if n < 0x80 then [Fin.ofNat n]
  else if n < 0x800 then [Fin.ofNat (0xC0 + n / 64), Fin.ofNat (0x80 + n % 64)]
  else if n < 0x10000 then
    [Fin.ofNat (0xE0 + n / 4096), Fin.ofNat (0x80 + n / 64 % 64), Fin.ofNat (0x80 + n % 64)]
  else
    [Fin.ofNat (0xF0 + n / 262144), Fin.ofNat (0x80 + n / 4096 % 64),
     Fin.ofNat (0x80 + n / 64 % 64), Fin.ofNat (0x80 + n % 64)]

/-- The bytes of a string literal. -/
def bytes (s : String) : Str := s.toList.flatMap utf8Encode

/-- Width in bytes of the first rune of a non-empty string, as reported by
`utf8.DecodeRuneInString`: 1 for an ASCII byte and for every byte that does not
start a well-formed sequence, otherwise the length of the sequence. -/
def runeWidth (s : Str) : Nat :=
  let cont (b : Byte) : Bool := 0x80 ≤ b.val && b.val ≤ 0xBF
  match s with
  | [] => 0
  | b0 :: rest =>
    if b0.val < 0x80 then 1
    else if 0xC2 ≤ b0.val && b0.val ≤ 0xDF then
      match rest with
      | b1 :: _ => if cont b1 then 2 else 1
      | _ => 1
    else if 0xE0 ≤ b0.val && b0.val ≤ 0xEF then
      match rest with
      | b1 :: b2 :: _ =>
        let lo := if b0.val = 0xE0 then 0xA0 else 0x80
        let hi := if b0.val = 0xED then 0x9F else 0xBF
        if lo ≤ b1.val && b1.val ≤ hi && cont b2 then 3 else 1
      | _ => 1
    else if 0xF0 ≤ b0.val && b0.val ≤ 0xF4 then
      match rest with
      | b1 :: b2 :: b3 :: _ =>
        let lo := if b0.val = 0xF0 then 0x90 else 0x80
        let hi := if b0.val = 0xF4 then 0x8F else 0xBF
        if lo ≤ b1.val && b1.val ≤ hi && cont b2 && cont b3 then 4 else 1
      | _ => 1
    else 1

/-- The loop of `strings.explode` with no limit: one slice per rune. The first
argument bounds the number of runes (the byte length is enough). -/
def explodeLoop : Nat → Str → List Str
  | 0, _ => []
  | _ + 1, [] => []
  | k + 1, b :: rest =>
    (b :: rest).take (runeWidth (b :: rest)) ::
      explodeLoop k ((b :: rest).drop (runeWidth (b :: rest)))

/-- The Go function `strings.explode(s, -1)`: `s` cut into its runes. -/
def explode (s : Str) : List Str := explodeLoop s.length s

/-- The Go function `strings.Index(s, sep)`: position of the first occurrence
of `sep` in `s`, `none` standing for `-1`. -/
def Index : Str → Str → Option Nat
  | [], sep => if sep = [] then some 0 else none
  | c :: s, sep =>
    if sep.isPrefixOf (c :: s) then some 0 else (Index s sep).map (· + 1)

/-- The counting loop of `strings.Count` for a non-empty `sep`: non-overlapping
occurrences, left to right. The first argument bounds the iterations; every
iteration consumes at least one byte, so the byte length is enough. -/
def countLoop (sep : Str) : Nat → Str → Nat
  | 0, _ => 0
  | k + 1, s =>
    match Index s sep with
    | none => 0
    | some i => 1 + countLoop sep k (s.drop (i + sep.length))

/-- The Go function `strings.Count(s, sep)` for a non-empty `sep`. -/
def Count (s sep : Str) : Nat := countLoop sep s.length s

/-- The loop of `strings.genSplit(s, sep, 0, n)`: `k` is the number of
iterations left (`n - 1 - i`); the segment after the last cut is appended. -/
def genSplitLoop (sep : Str) : Nat → Str → List Str
  | 0, s => [s]
  | k + 1, s =>
    match Index s sep with
    | none => [s]
    | some m => s.take m :: genSplitLoop sep k (s.drop (m + sep.length))

/-- The Go function `strings.Split(s, sep)` (`genSplit(s, sep, 0, -1)`): an
empty separator explodes the string into runes, otherwise `n = Count(s, sep) + 1`
and the loop runs while `i < n - 1`. -/
def Split (s sep : Str) : List Str :=
  if sep = [] then explode s else genSplitLoop sep (Count s sep) s

/-- A Go slice expression `a[lo:hi]` on a slice whose capacity equals its
length: panics unless `0 ≤ lo ≤ hi ≤ len(a)`. -/
def goSlice {α : Type} (a : List α) (lo hi : Int) : Option (List α) :=
  if 0 ≤ lo ∧ lo ≤ hi ∧ hi ≤ a.length then
    some ((a.drop lo.toNat).take (hi.toNat - lo.toNat))
  else none

/-- A Go index expression `a[i]` with a signed index: panics out of range. -/
def goIndex {α : Type} (a : List α) (i : Int) : Option α :=
  if 0 ≤ i then a.get? i.toNat else none

/-- The Go function `strings.Repeat(s, count)`: panics on a negative count. -/
def Repeat (s : Str) (count : Int) : Option Str :=
  if count < 0 then none else some (List.replicate count.toNat s).flatten

/-- The Go function `strings.ToLower(s)` on ASCII: the bytes `A`..`Z` are moved
to `a`..`z`. On a string with a byte of `0x80` or more Go maps every rune
through the Unicode case tables, which are not modelled: such bytes are left
as they are. No rune outside ASCII has a lower case among the letters of
`replycode` and `replytext`, so whether the result equals one of these two
keys is the same in Go and here. -/
def ToLower (s : Str) : Str :=
  s.map (fun c => if 0x41 ≤ c.val ∧ c.val ≤ 0x5A then c + 0x20 else c)

/-- The Go function `strings.Trim(s, cutset)` for a cutset of ASCII bytes:
the leading and the trailing bytes that belong to the cutset are removed. -/
def Trim (s cutset : Str) : Str :=
  ((s.dropWhile (fun c => decide (c ∈ cutset))).reverse.dropWhile
    (fun c => decide (c ∈ cutset))).reverse

/-! ## Errors -/

/-- The error values the decoder can return. -/
inductive GoError where
  /-- `*strconv.NumError` with `Err = ErrSyntax`, for the input `num`. -/
  | numSyntax (num : Str)
  /-- `*strconv.NumError` with `Err = ErrRange`, for the input `num`. -/
  | numRange (num : Str)
  /-- `hex.InvalidByteError(b)`. -/
  | hexInvalidByte (b : Byte)
  /-- `hex.ErrLength`: odd number of hex digits. -/
  | hexLength
  /-- An error reported by the XML decoder: `io.EOF`, a syntax error or an
  error of the underlying reader, told apart by `tag`. -/
  | read (tag : Nat)
  deriving DecidableEq, Repr

/-! ## strconv.ParseInt -/

/-- The loop of `strconv.ParseUint` over the bytes of `s` for a base in
`2..36`, where neither a prefix nor an underscore is accepted; `s0` is the
string reported in the error, `n` the value read so far (a `uint64`). -/
def parseUintLoop (s0 : Str) (base maxVal : Nat) : Str → Nat → Nat × Option GoError
  | [], n => (n, none)
  | c :: s, n =>
    let lower := c.val ||| 0x20
    let digit : Option Nat :=
      if 0x30 ≤ c.val ∧ c.val ≤ 0x39 then some (c.val - 0x30)
      else if 0x61 ≤ lower ∧ lower ≤ 0x7A then some (lower - 0x61 + 10)
      else none
    match digit with
    | none => (0, some (.numSyntax s0))
    | some d =>
      if d ≥ base then (0, some (.numSyntax s0))
      else if n ≥ (2 ^ 64 - 1) / base + 1 then (maxVal, some (.numRange s0))
      else
        let nb := n * base % 2 ^ 64
        let n1 := (nb + d) % 2 ^ 64
        if n1 < nb ∨ n1 > maxVal then (maxVal, some (.numRange s0))
        else parseUintLoop s0 base maxVal s n1

/-- The Go function `strconv.ParseUint(s, base, bitSize)` for `2 ≤ base ≤ 36`
and `1 ≤ bitSize ≤ 64`. -/
def ParseUint (s : Str) (base bitSize : Nat) : Nat × Option GoError :=
  if s = [] then (0, some (.numSyntax s))
  else parseUintLoop s base (2 ^ bitSize - 1) s 0

/-- The Go function `strconv.ParseInt(s, base, bitSize)` for `2 ≤ base ≤ 36`
and `1 ≤ bitSize ≤ 64`: an optional sign, then `ParseUint`, then the range
check against `1 << (bitSize-1)`. The error carries the whole input. -/
def ParseInt (s0 : Str) (base bitSize : Nat) : Int × Option GoError :=
  match s0 with
  | [] => (0, some (.numSyntax s0))
  | c :: rest =>
    let neg : Bool := c.val = 0x2D
    let s := if c.val = 0x2B ∨ c.val = 0x2D then rest else s0
    match ParseUint s base bitSize with
    | (_, some (.numSyntax _)) => (0, some (.numSyntax s0))
    | (un, _) =>
      let cutoff := 2 ^ (bitSize - 1)
      if !neg ∧ un ≥ cutoff then ((cutoff : Int) - 1, some (.numRange s0))
      else if neg ∧ un > cutoff then (-(cutoff : Int), some (.numRange s0))
      else (if neg then -(un : Int) else (un : Int), none)

/-! ## encoding/hex -/

/-- The value of one hex digit (`reverseHexTable`), `none` for any other byte. -/
def fromHexChar (c : Byte) : Option Nat :=
  if 0x30 ≤ c.val ∧ c.val ≤ 0x39 then some (c.val - 0x30)
  else if 0x61 ≤ c.val ∧ c.val ≤ 0x66 then some (c.val - 0x61 + 10)
  else if 0x41 ≤ c.val ∧ c.val ≤ 0x46 then some (c.val - 0x41 + 10)
  else none

/-- The Go function `hex.Decode` as used by `hex.DecodeString`: pairs of digits
are decoded left to right into `acc`; the bytes decoded before an error are
returned with it. -/
def hexDecodeLoop : Str → List Byte → List Byte × Option GoError
  | [], acc => (acc, none)
  | [p], acc =>
    match fromHexChar p with
    | none => (acc, some (.hexInvalidByte p))
    | some _ => (acc, some .hexLength)
  | p :: q :: rest, acc =>
    match fromHexChar p, fromHexChar q with
    | none, _ => (acc, some (.hexInvalidByte p))
    | some _, none => (acc, some (.hexInvalidByte q))
    | some a, some b => hexDecodeLoop rest (acc ++ [Fin.ofNat (a * 16 + b)])

/-- The Go function `hex.DecodeString(s)`. -/
def DecodeString (s : Str) : List Byte × Option GoError := hexDecodeLoop s []

/-! ## encoding/xml -/

/-- The Go type `xml.Name`. -/
structure Name where
  Space : Str
  Local : Str
  deriving DecidableEq, Repr

/-- The Go type `xml.Attr`. -/
structure Attr where
  Name : Name
  Value : Str
  deriving DecidableEq, Repr

/-- The Go type `xml.StartElement`. -/
structure StartElement where
  Name : Name
  Attr : List Attr
  deriving DecidableEq, Repr

/-- The Go type `xml.Token`; only a start element carries data the program reads. -/
inductive Token where
  | StartElement (t : StartElement)
  | EndElement (name : Name)
  | CharData (data : Str)
  | Comment (data : Str)
  | ProcInst (target inst : Str)
  | Directive (data : Str)
  deriving DecidableEq, Repr

/-- An `xml.Decoder` over an input: the tokens it will still deliver, then the
error every later read returns (`io.EOF` or an error of the source). -/
structure Decoder where
  tokens : List Token
  fail : GoError
  deriving DecidableEq, Repr

/-! ## Maps -/

/-- A Go `map[string]ν`: the bindings, the latest first. -/
abbrev GoMap (ν : Type) := List (Str × ν)

/-- The assignment `m[k] = v`. -/
def mapSet {ν : Type} (m : GoMap ν) (k : Str) (v : ν) : GoMap ν := (k, v) :: m

/-- The index expression `m[k]`: the bound value, the zero value when absent. -/
def mapGet {ν : Type} (zero : ν) : GoMap ν → Str → ν
  | [], _ => zero
  | (k', v) :: m, k => if k' = k then v else mapGet zero m k

/-! ## client/common.go -/

namespace Client

/-- RetsResponse is the common wrapper details for each response. -/
structure RetsResponse where
  ReplyCode : Int
  ReplyText : Str
  deriving DecidableEq, Repr

/-- The loop `for _, v := range start.Attr` of ParseRetsResponseTag:
`attrs[strings.ToLower(v.Name.Local)] = v.Value`. -/
def lowerAttrs : List Attr → GoMap Str → GoMap Str
  | [], attrs => attrs
  | v :: rest, attrs => lowerAttrs rest (mapSet attrs (ToLower v.Name.Local) v.Value)

/-- ParseRetsResponseTag of `client/common.go`. -/
def ParseRetsResponseTag (start : StartElement) : Option RetsResponse × Option GoError :=
  let attrs := lowerAttrs start.Attr []
  match ParseInt (mapGet [] attrs (bytes "replycode")) 10 16 with
  | (_, some err) => (none, some err)
  | (code, none) =>
    (some { ReplyCode := code, ReplyText := mapGet [] attrs (bytes "replytext") }, none)

/-- The loop of ParseRetsResponse over the tokens the decoder still delivers:
one token is read at a time, a start element named `RETS` ends the loop, any
other token is dropped, and the read error `err` ends it when the tokens are
exhausted. The decoder is returned as the loop leaves it. -/
def retsLoop (err : GoError) :
    List Token → (Option RetsResponse × Option GoError) × Decoder
  | [] => ((none, some err), ⟨[], err⟩)
  | .StartElement t :: rest =>
    if t.Name.Local = bytes "RETS" then (ParseRetsResponseTag t, ⟨rest, err⟩)
    else retsLoop err rest
  | _ :: rest => retsLoop err rest

/-- ParseRetsResponse of `client/common.go`, on a decoder that delivers its
tokens and then fails. -/
def ParseRetsResponse (p : Decoder) : (Option RetsResponse × Option GoError) × Decoder :=
  retsLoop p.fail p.tokens

/-- ParseDelimiterTag of `client/common.go`: `start.Attr[0]` panics on an
element without attribute, `strings.Repeat` on a value longer than 2 bytes. -/
def ParseDelimiterTag (start : StartElement) : Option (Str × Option GoError) :=
  match start.Attr with
  | [] => none
  | a :: _ =>
    let del := a.Value
    match Repeat (bytes "0") (2 - (del.length : Int)) with
    | none => none
    | some pad =>
      match DecodeString (pad ++ del) with
      | (_, some err) => some ([], some err)
      | (decoded, none) => some (decoded, none)

/-- ParseCountTag of `client/common.go`. -/
def ParseCountTag (count : StartElement) : Option (Int × Option GoError) :=
  match count.Attr with
  | [] => none
  | a :: _ =>
    match ParseInt a.Value 10 64 with
    | (_, some err) => some (-1, some err)
    | (code, none) => some (code, none)

/-- ParseCompactRow of `client/common.go`:
`split := strings.Split(row, delim); return split[1 : len(split)-1]`. -/
def ParseCompactRow (row delim : Str) : Option (List Str) :=
  let split := Split row delim
  goSlice split 1 ((split.length : Int) - 1)

/-- CompactData is the common compact decoded structure. -/
structure CompactData where
  ID : Str
  Date : Str
  Version : Str
  Columns : List Str
  Rows : List (List Str)
  deriving DecidableEq, Repr

/-- The loop `for i, c := range m.Columns { index[c] = i }` from position `i`. -/
def indexLoop : List Str → Nat → GoMap Int → GoMap Int
  | [], _, index => index
  | c :: cs, i, index => indexLoop cs (i + 1) (mapSet index c (i : Int))

/-- Indexer of `client/common.go`: the map is built once, the returned
function evaluates `m.Rows[row][index[col]]`. -/
def CompactData.Indexer (m : CompactData) : Str → Int → Option Str :=
  let index := indexLoop m.Columns 0 []
  fun col row =>
    match goIndex m.Rows row with
    | none => none
    | some r => goIndex r (mapGet 0 index col)

/-- The loop of extractMap: `data.Rows[i] = ParseCompactRow(line, delim)` for
every line in order; a panic of one call ends the whole. -/
def extractRows (delim : Str) : List Str → Option (List (List Str))
  | [] => some []
  | line :: rest =>
    match ParseCompactRow line delim with
    | none => none
    | some r =>
      match extractRows delim rest with
      | none => none
      | some rs => some (r :: rs)

/-- The function extractMap of `client/common.go`. -/
def extractMap (cols : Str) (rows : List Str) (delim : Str) : Option CompactData :=
  match ParseCompactRow cols delim with
  | none => none
  | some columns =>
    match extractRows delim rows with
    | none => none
    | some rs => some { ID := [], Date := [], Version := [], Columns := columns, Rows := rs }

/-- XMLMetadataElement is the simple extraction tool for our data. -/
structure XMLMetadataElement where
  Resource : Str
  Class : Str
  Lookup : Str
  Version : Str
  Date : Str
  Columns : Str
  Data : List Str
  deriving DecidableEq, Repr

/-- ParseMetadataCompactDecoded of `client/common.go`. The XML library call
`parser.DecodeElement(&xme, &start)` is represented by its outcome: the struct
`xme` it filled and the error `err` it returned. -/
def ParseMetadataCompactDecoded (xme : XMLMetadataElement) (err : Option GoError)
    (delim : Str) : Option (Option CompactData × Option GoError) :=
  match err with
  | some e => some (none, some e)
  | none =>
    if xme.Columns = [] then some (none, none)
    else
      match extractMap xme.Columns xme.Data delim with
      | none => none
      | some data =>
        let data := { data with Date := xme.Date }
        let data := { data with Version := xme.Version }
        let data := { data with ID := xme.Resource }
        let data :=
          if xme.Class ≠ [] then { data with ID := xme.Resource ++ bytes ":" ++ xme.Class }
          else data
        let data :=
          if xme.Lookup ≠ [] then { data with ID := xme.Resource ++ bytes ":" ++ xme.Lookup }
          else data
        some (some data, none)

end Client

/-! ## metadata.go -/

namespace Metadata

/-- The constant `delim` of `metadata.go`: one tab. -/
def delim : Str := bytes "\t"

/-- MData, the common structure of `metadata.go`. -/
structure MData where
  Version : Str
  Date : Str
  Columns : List Str
  Rows : List (List Str)
  deriving DecidableEq, Repr

/-- Indexer of `metadata.go`, the same code as in `client/common.go`. -/
def MData.Indexer (m : MData) : Str → Int → Option Str :=
  let index := Client.indexLoop m.Columns 0 []
  fun col row =>
    match goIndex m.Rows row with
    | none => none
    | some r => goIndex r (mapGet 0 index col)

/-- The function extractMap of `metadata.go`: every line is trimmed of its tabs
and split on the tab. -/
def extractMap (cols : Str) (rows : List Str) : MData :=
  { Version := [], Date := [],
    Columns := Split (Trim cols delim) delim,
    Rows := rows.map (fun line => Split (Trim line delim) delim) }

end Metadata

/-! ## Specification-side definitions -/

/-- The segments of `s` between the occurrences of the byte `d`, by structural
recursion: the reference against which `Split` on a one-byte separator is
compared. -/
def segments (d : Byte) : Str → List Str
  | [] => [[]]
  | c :: s =>
    if c = d then [] :: segments d s
    else
      match segments d s with
      | [] => [[c]]
      | h :: t => (c :: h) :: t

/-- The wire form of a row: `d + f1 + d + f2 + ... + d + fn + d`. -/
def compactRow (d : Byte) (fields : List Str) : Str :=
  d :: fields.flatMap (fun f => f ++ [d])

/-- The fields of a row joined by the byte `d`: `f1 + d + f2 + ... + d + fn`,
the wire form without its two bounding delimiters. -/
def joinFields (d : Byte) : List Str → Str
  | [] => []
  | [f] => f
  | f :: g :: fs => f ++ d :: joinFields d (g :: fs)

/-- A byte is one of the decimal digits `0`..`9`. -/
def isDecDigit (c : Byte) : Bool := 0x30 ≤ c.val && c.val ≤ 0x39

/-- The number a string of decimal digits denotes, the most significant first. -/
def decValue (ds : Str) : Nat := ds.foldl (fun n c => 10 * n + (c.val - 0x30)) 0

/-- A string without its leading sign `+` or `-`, if it has one. -/
def unsignedPart : Str → Str
  | [] => []
  | c :: rest => if c.val = 0x2B ∨ c.val = 0x2D then rest else c :: rest

/-- The string starts with the sign `-`. -/
def isNegative : Str → Bool
  | [] => false
  | c :: _ => c.val = 0x2D

/-- The string is an optionally signed base-10 integer: an optional `+` or `-`
followed by one or more decimal digits and nothing else. -/
def isDecimal (s : Str) : Bool := unsignedPart s ≠ [] && (unsignedPart s).all isDecDigit

/-- The integer an optionally signed base-10 string denotes. -/
def decimalValue (s : Str) : Int :=
  if isNegative s then -(decValue (unsignedPart s) : Int) else (decValue (unsignedPart s) : Int)

/-- The string is an optionally signed base-10 integer in the 16-bit range
`[-32768, 32767]`. -/
def IsInt16Decimal (s : Str) : Prop :=
  isDecimal s = true ∧ -32768 ≤ decimalValue s ∧ decimalValue s ≤ 32767

instance (s : Str) : Decidable (IsInt16Decimal s) := by
  unfold IsInt16Decimal
  infer_instance

/-- The value of the attribute whose lower-cased name is `key`, the empty
string when there is none (the last one when there are several). -/
def attrValue (attrs : List Attr) (key : Str) : Str :=
  match (attrs.filter (fun v => ToLower v.Name.Local = key)).getLast? with
  | some a => a.Value
  | none => []

/-- The sixteen hexadecimal digits in lower case, in increasing value. -/
def hexLower : Str := bytes "0123456789abcdef"

/-- The sixteen hexadecimal digits in upper case, in increasing value. -/
def hexUpper : Str := bytes "0123456789ABCDEF"

/-- A byte is a hexadecimal digit: `0`-`9`, `a`-`f` or `A`-`F`. -/
def isHexDigit (c : Byte) : Bool := decide (c ∈ hexLower) || decide (c ∈ hexUpper)

/-- The value of a hexadecimal digit: its rank among the sixteen digits. -/
def hexDigitValue (c : Byte) : Nat :=
  if c ∈ hexLower then hexLower.indexOf c else hexUpper.indexOf c

/-- The number a string of hexadecimal digits denotes in base 16, the most
significant digit first. -/
def hexValue (s : Str) : Nat := s.foldl (fun n c => 16 * n + hexDigitValue c) 0

/-! ## Lemmas on `Split` with a one-byte separator -/

theorem segments_ne_nil (d : Byte) (s : Str) : segments d s ≠ [] := by
  induction s with
  | nil => simp [segments]
  | cons c s ih =>
    unfold segments
    split
    · simp
    · split <;> simp

theorem segments_of_not_mem (d : Byte) (s : Str) (h : d ∉ s) : segments d s = [s] := by
  induction s with
  | nil => rfl
  | cons c s ih =>
    have hc : c ≠ d := fun e => h (by simp [e])
    have hs : d ∉ s := fun e => h (by simp [e])
    simp [segments, hc, ih hs]

theorem segments_append_sep (d : Byte) (pre rest : Str) (h : d ∉ pre) :
    segments d (pre ++ d :: rest) = pre :: segments d rest := by
  induction pre with
  | nil => simp [segments]
  | cons c pre ih =>
    have hc : c ≠ d := fun e => h (by simp [e])
    have hs : d ∉ pre := fun e => h (by simp [e])
    simp [segments, hc, ih hs]

theorem length_segments (d : Byte) (s : Str) : (segments d s).length = s.count d + 1 := by
  induction s with
  | nil => rfl
  | cons c s ih =>
    by_cases hc : c = d
    · simp [segments, hc, ih]
    · have hne := segments_ne_nil d s
      cases hseg : segments d s with
      | nil => exact absurd hseg hne
      | cons h t =>
        rw [hseg] at ih
        simp [segments, hc, hseg, List.count_cons] at ih ⊢
        omega

theorem Index_single_none (d : Byte) (s : Str) (h : d ∉ s) : Index s [d] = none := by
  induction s with
  | nil => simp [Index]
  | cons c s ih =>
    have hc : d ≠ c := fun e => h (by simp [e])
    have hs : d ∉ s := fun e => h (by simp [e])
    simp [Index, List.isPrefixOf_cons₂, hc, ih hs]

theorem Index_single_some (d : Byte) (pre rest : Str) (h : d ∉ pre) :
    Index (pre ++ d :: rest) [d] = some pre.length := by
  induction pre with
  | nil => simp [Index, List.isPrefixOf_cons₂]
  | cons c pre ih =>
    have hc : d ≠ c := fun e => h (by simp [e])
    have hs : d ∉ pre := fun e => h (by simp [e])
    simp [Index, List.isPrefixOf_cons₂, hc, ih hs]

/-- Every string either lacks `d` or is cut at its first occurrence. -/
theorem cut_at_first (d : Byte) (s : Str) :
    d ∉ s ∨ ∃ pre rest, s = pre ++ d :: rest ∧ d ∉ pre := by
  induction s with
  | nil => left; simp
  | cons c s ih =>
    by_cases hc : c = d
    · right; exact ⟨[], s, by simp [hc], by simp⟩
    · rcases ih with h | ⟨pre, rest, hs, hp⟩
      · left
        simp [h, Ne.symm hc]
      · right
        exact ⟨c :: pre, rest, by simp [hs], by simp [hp, Ne.symm hc]⟩

theorem countLoop_single (d : Byte) (k : Nat) (s : Str) (hk : s.length ≤ k) :
    countLoop [d] k s = s.count d := by
  induction k generalizing s with
  | zero =>
    have : s = [] := List.length_eq_zero.mp (Nat.le_zero.mp hk)
    simp [this, countLoop]
  | succ k ih =>
    rcases cut_at_first d s with h | ⟨pre, rest, hs, hp⟩
    · simp [countLoop, Index_single_none d s h, List.count_eq_zero_of_not_mem h]
    · subst hs
      have hlen : rest.length ≤ k := by
        simp at hk
        omega
      simp [countLoop, Index_single_some d pre rest hp, ih rest hlen,
        List.count_eq_zero_of_not_mem hp]
      omega

theorem Count_single (d : Byte) (s : Str) : Count s [d] = s.count d :=
  countLoop_single d s.length s (Nat.le_refl _)

theorem genSplitLoop_single (d : Byte) (k : Nat) (s : Str) (hk : s.count d ≤ k) :
    genSplitLoop [d] k s = segments d s := by
  induction k generalizing s with
  | zero =>
    have h : d ∉ s := List.count_eq_zero.mp (Nat.le_zero.mp hk)
    simp [genSplitLoop, segments_of_not_mem d s h]
  | succ k ih =>
    rcases cut_at_first d s with h | ⟨pre, rest, hs, hp⟩
    · simp [genSplitLoop, Index_single_none d s h, segments_of_not_mem d s h]
    · subst hs
      have hcnt : rest.count d ≤ k := by
        simp [List.count_eq_zero_of_not_mem hp] at hk
        omega
      simp [genSplitLoop, Index_single_some d pre rest hp, ih rest hcnt,
        segments_append_sep d pre rest hp]

/-- On a one-byte separator `Split` returns the segments between its
occurrences. -/
theorem Split_single (d : Byte) (s : Str) : Split s [d] = segments d s := by
  simp [Split, Count_single, genSplitLoop_single d (s.count d) s (Nat.le_refl _)]

theorem segments_flatMap (d : Byte) (fields : List Str) (h : ∀ f ∈ fields, d ∉ f) :
    segments d (fields.flatMap (fun f => f ++ [d])) = fields ++ [[]] := by
  induction fields with
  | nil => simp [segments]
  | cons f fs ih =>
    have hf : d ∉ f := h f (by simp)
    have hfs : ∀ g ∈ fs, d ∉ g := fun g hg => h g (by simp [hg])
    simp [List.flatMap_cons, segments_append_sep d f _ hf, ih hfs]

/-- The splitter on a one-byte delimiter, in terms of the segments: it panics
when there is a single segment, otherwise it drops the first and the last. -/
theorem ParseCompactRow_single (d : Byte) (row : Str) :
    Client.ParseCompactRow row [d] =
      if 2 ≤ (segments d row).length then
        some (((segments d row).drop 1).take ((segments d row).length - 2))
      else none := by
  simp only [Client.ParseCompactRow, goSlice, Split_single]
  by_cases h : 2 ≤ (segments d row).length
  · have h1 : (0 : Int) ≤ 1 ∧ (1 : Int) ≤ ((segments d row).length : Int) - 1 ∧
        ((segments d row).length : Int) - 1 ≤ ((segments d row).length : Int) := by omega
    have h2 : (((segments d row).length : Int) - 1).toNat - (1 : Int).toNat =
        (segments d row).length - 2 := by
      have : (1 : Int).toNat = 1 := rfl
      omega
    rw [if_pos h1, if_pos h, h2]
    rfl
  · have h1 : ¬ ((0 : Int) ≤ 1 ∧ (1 : Int) ≤ ((segments d row).length : Int) - 1 ∧
        ((segments d row).length : Int) - 1 ≤ ((segments d row).length : Int)) := by omega
    rw [if_neg h1, if_neg h]

/-! ## The bounds of the library loops are large enough -/

theorem Index_add_le (s sep : Str) (i : Nat) (h : Index s sep = some i) :
    i + sep.length ≤ s.length := by
  induction s generalizing i with
  | nil =>
    by_cases hs : sep = []
    · simp [Index, hs] at h
      simp [hs, ← h]
    · simp [Index, hs] at h
  | cons c s ih =>
    simp only [Index] at h
    by_cases hp : sep.isPrefixOf (c :: s) = true
    · simp only [hp, if_true, Option.some.injEq] at h
      have := (List.isPrefixOf_iff_prefix.mp hp).length_le
      omega
    · simp only [hp, Bool.false_eq_true, if_false] at h
      cases hi : Index s sep with
      | none => simp [hi] at h
      | some j =>
        have h2 : j + 1 = i := by simpa [hi] using h
        have := ih j hi
        simp only [List.length_cons]
        omega

/-- More iterations than the byte length do not change the count of a
non-empty separator. -/
theorem countLoop_stable (sep : Str) (hsep : sep ≠ []) (k : Nat) (s : Str)
    (hk : s.length ≤ k) : countLoop sep k s = countLoop sep s.length s := by
  induction k using Nat.strong_induction_on generalizing s with
  | _ k ih =>
    have hpos : 0 < sep.length := List.length_pos.mpr hsep
    cases k with
    | zero =>
      have : s = [] := List.length_eq_zero.mp (Nat.le_zero.mp hk)
      simp [this]
    | succ k =>
      cases s with
      | nil => simp [countLoop, Index, hsep]
      | cons c t =>
        simp only [countLoop, List.length_cons]
        cases hi : Index (c :: t) sep with
        | none => rfl
        | some i =>
          have hle := Index_add_le (c :: t) sep i hi
          simp only [List.length_cons] at hle hk
          have hd : (List.drop (i + sep.length) (c :: t)).length ≤ t.length := by
            simp only [List.length_drop, List.length_cons]
            omega
          simp only
          rw [ih k (Nat.lt_succ_self k) _ (by omega), ih t.length (by omega) _ hd]

theorem runeWidth_pos (b : Byte) (rest : Str) : 1 ≤ runeWidth (b :: rest) := by
  unfold runeWidth
  simp only
  repeat (first | omega | split)

/-- More iterations than the byte length do not change the runes cut by
`explode`. -/
theorem explodeLoop_stable (k : Nat) (s : Str) (hk : s.length ≤ k) :
    explodeLoop k s = explodeLoop s.length s := by
  induction k using Nat.strong_induction_on generalizing s with
  | _ k ih =>
    cases s with
    | nil => cases k <;> simp [explodeLoop]
    | cons b rest =>
      cases k with
      | zero => simp at hk
      | succ k =>
        have hw := runeWidth_pos b rest
        simp only [List.length_cons] at hk
        have hd : (List.drop (runeWidth (b :: rest)) (b :: rest)).length ≤ rest.length := by
          simp only [List.length_drop, List.length_cons]
          omega
        simp only [explodeLoop, List.length_cons]
        rw [ih k (Nat.lt_succ_self k) _ (by omega), ih rest.length (by omega) _ hd]

/-! ## Lemmas on the column index -/

theorem mapGet_indexLoop_of_not_mem (cols : List Str) (i : Nat) (index : GoMap Int) (col : Str)
    (h : col ∉ cols) :
    mapGet 0 (Client.indexLoop cols i index) col = mapGet 0 index col := by
  induction cols generalizing i index with
  | nil => rfl
  | cons c cs ih =>
    have hc : c ≠ col := fun e => h (by simp [e])
    have hcs : col ∉ cs := fun e => h (by simp [e])
    simp [Client.indexLoop, ih (i + 1) _ hcs, mapSet, mapGet, hc]

/-- The index holds, for a name, the position of its last occurrence. -/
theorem mapGet_indexLoop_last (cols : List Str) (i : Nat) (index : GoMap Int) (j : Nat)
    (c : Str) (hj : cols[j]? = some c) (hlast : ∀ k, j < k → cols[k]? ≠ some c) :
    mapGet 0 (Client.indexLoop cols i index) c = ((i + j : Nat) : Int) := by
  induction cols generalizing i index j with
  | nil => simp at hj
  | cons x cs ih =>
    cases j with
    | zero =>
      have hx : x = c := by simpa using hj
      have hcs : c ∉ cs := by
        intro hmem
        obtain ⟨n, hn⟩ := List.mem_iff_getElem?.mp hmem
        exact hlast (n + 1) (Nat.succ_pos n) (by simpa using hn)
      simp [Client.indexLoop, mapGet_indexLoop_of_not_mem cs (i + 1) _ c hcs, mapSet, mapGet, hx]
    | succ j =>
      have hj2 : cs[j]? = some c := by simpa using hj
      have hlast2 : ∀ k, j < k → cs[k]? ≠ some c := by
        intro k hk
        have := hlast (k + 1) (Nat.succ_lt_succ hk)
        simpa using this
      have := ih (i + 1) (mapSet index x (i : Int)) j hj2 hlast2
      simp only [Client.indexLoop, this]
      congr 1
      omega

theorem goIndex_natCast {α : Type} (a : List α) (n : Nat) : goIndex a (n : Int) = a[n]? := by
  simp [goIndex]

/-! ## Lemmas on `strconv.ParseInt` in base 10 with 16 bits -/

theorem le_foldl_dec (ds : Str) (n : Nat) :
    n ≤ ds.foldl (fun n c => 10 * n + (c.val - 0x30)) n := by
  induction ds generalizing n with
  | nil => simp
  | cons c ds ih =>
    simp only [List.foldl_cons]
    exact Nat.le_trans (by omega) (ih _)

/-- On a string of digits the loop of ParseUint computes its value, or stops
with a range error once the value exceeds 65535. -/
theorem parseUintLoop_digits (s0 ds : Str) (n : Nat) (hn : n ≤ 65535)
    (hd : ds.all isDecDigit = true) :
    parseUintLoop s0 10 65535 ds n =
      if ds.foldl (fun n c => 10 * n + (c.val - 0x30)) n ≤ 65535 then
        (ds.foldl (fun n c => 10 * n + (c.val - 0x30)) n, none)
      else (65535, some (.numRange s0)) := by
  induction ds generalizing n with
  | nil => simp [parseUintLoop, hn]
  | cons c ds ih =>
    simp only [List.all_cons, Bool.and_eq_true, isDecDigit, decide_eq_true_eq] at hd
    obtain ⟨⟨h0, h9⟩, hds⟩ := hd
    have hdig : (0x30 ≤ c.val ∧ c.val ≤ 0x39) := ⟨h0, h9⟩
    have hmono := le_foldl_dec ds (10 * n + (c.val - 0x30))
    simp only [parseUintLoop, hdig, and_self, if_true, List.foldl_cons]
    have hd10 : ¬ (c.val - 0x30 ≥ 10) := by omega
    have hcut : ¬ (n ≥ (2 ^ 64 - 1) / 10 + 1) := by
      have : (2 ^ 64 - 1) / 10 + 1 = 1844674407370955162 := by norm_num
      omega
    have hnb : n * 10 % 2 ^ 64 = n * 10 := Nat.mod_eq_of_lt (by
      have : (2 : Nat) ^ 64 = 18446744073709551616 := by norm_num
      omega)
    have hn1 : (n * 10 + (c.val - 0x30)) % 2 ^ 64 = 10 * n + (c.val - 0x30) := by
      rw [Nat.mod_eq_of_lt (by
        have : (2 : Nat) ^ 64 = 18446744073709551616 := by norm_num
        omega)]
      omega
    rw [if_neg hd10, if_neg hcut, hnb, hn1]
    by_cases hbig : 10 * n + (c.val - 0x30) > 65535
    · have h1 : (10 * n + (c.val - 0x30) < n * 10 ∨ 10 * n + (c.val - 0x30) > 65535) := Or.inr hbig
      have h2 : ¬ (ds.foldl (fun n c => 10 * n + (c.val - 0x30)) (10 * n + (c.val - 0x30)) ≤ 65535) := by
        omega
      rw [if_pos h1, if_neg h2]
    · have h1 : ¬ (10 * n + (c.val - 0x30) < n * 10 ∨ 10 * n + (c.val - 0x30) > 65535) := by omega
      rw [if_neg h1, ih _ (by omega) hds]

/-- On a string holding a byte that is not a digit the loop of ParseUint ends
with a syntax error, or with a range error and the value 65535. -/
theorem parseUintLoop_not_digits (s0 s : Str) (n : Nat) (hd : s.all isDecDigit = false) :
    parseUintLoop s0 10 65535 s n = (0, some (.numSyntax s0)) ∨
    parseUintLoop s0 10 65535 s n = (65535, some (.numRange s0)) := by
  induction s generalizing n with
  | nil => simp at hd
  | cons c s ih =>
    unfold parseUintLoop
    by_cases hdig : (0x30 ≤ c.val ∧ c.val ≤ 0x39)
    · have hs : s.all isDecDigit = false := by
        have hc : isDecDigit c = true := by simp [isDecDigit, hdig]
        simpa [List.all_cons, hc] using hd
      simp only [hdig, and_self, if_true]
      split
      · simp
      · split
        · simp
        · split
          · simp
          · exact ih _ hs
    · simp only [hdig, if_false]
      by_cases hlet : (0x61 ≤ c.val ||| 0x20 ∧ c.val ||| 0x20 ≤ 0x7A)
      · simp only [hlet, and_self, if_true]
        have : (c.val ||| 0x20) - 0x61 + 10 ≥ 10 := by omega
        simp [this]
      · simp [hlet]

theorem ParseUint_digits (u : Str) (hne : u ≠ []) (hd : u.all isDecDigit = true) :
    ParseUint u 10 16 =
      if decValue u ≤ 65535 then (decValue u, none) else (65535, some (.numRange u)) := by
  have h := parseUintLoop_digits u u 0 (by omega) hd
  simp only [ParseUint, if_neg hne, decValue]
  exact h

theorem ParseUint_not_digits (u : Str) (h : u = [] ∨ u.all isDecDigit = false) :
    ParseUint u 10 16 = (0, some (.numSyntax u)) ∨
    ParseUint u 10 16 = (65535, some (.numRange u)) := by
  by_cases hne : u = []
  · left
    simp [ParseUint, hne]
  · have hd : u.all isDecDigit = false := by
      rcases h with h | h
      · exact absurd h hne
      · exact h
    have := parseUintLoop_not_digits u u 0 hd
    simp only [ParseUint, if_neg hne]
    exact this

/-- ParseInt in base 10 with 16 bits unfolds to ParseUint on the unsigned part. -/
theorem ParseInt_eq (s0 : Str) (hne : s0 ≠ []) :
    ParseInt s0 10 16 =
      match ParseUint (unsignedPart s0) 10 16 with
      | (_, some (.numSyntax _)) => (0, some (.numSyntax s0))
      | (un, _) =>
        if isNegative s0 = false ∧ un ≥ 32768 then (32767, some (.numRange s0))
        else if isNegative s0 = true ∧ un > 32768 then (-32768, some (.numRange s0))
        else (if isNegative s0 = true then -(un : Int) else (un : Int), none) := by
  cases s0 with
  | nil => exact absurd rfl hne
  | cons c rest =>
    simp only [ParseInt, unsignedPart, isNegative]
    norm_num

/-- On an optionally signed base-10 integer ParseInt returns its value when it
lies in the 16-bit range, and a range error otherwise. -/
theorem ParseInt_decimal (s : Str) (h : isDecimal s = true) :
    ParseInt s 10 16 =
      if -32768 ≤ decimalValue s ∧ decimalValue s ≤ 32767 then (decimalValue s, none)
      else (if isNegative s = true then -32768 else 32767, some (.numRange s)) := by
  simp only [isDecimal, Bool.and_eq_true, decide_eq_true_eq] at h
  obtain ⟨hu, hd⟩ := h
  have hne : s ≠ [] := by
    intro e
    apply hu
    simp [e, unsignedPart]
  rw [ParseInt_eq s hne, ParseUint_digits _ hu hd]
  simp only [decimalValue]
  generalize decValue (unsignedPart s) = v
  by_cases hneg : isNegative s = true
  · simp only [hneg, if_true]
    by_cases hv : v ≤ 65535
    · by_cases hr : v > 32768
      · have h2 : ¬ (-32768 ≤ -(v : Int) ∧ -(v : Int) ≤ 32767) := by omega
        rw [if_neg h2, if_pos hv]
        simp [hr]
      · have h2 : (-32768 ≤ -(v : Int) ∧ -(v : Int) ≤ 32767) := by omega
        rw [if_pos h2, if_pos hv]
        simp [hr]
    · have h2 : ¬ (-32768 ≤ -(v : Int) ∧ -(v : Int) ≤ 32767) := by omega
      rw [if_neg h2, if_neg hv]
      simp
  · have hneg2 : isNegative s = false := by simpa using hneg
    simp only [hneg2, Bool.false_eq_true, if_false]
    by_cases hv : v ≤ 65535
    · by_cases hr : v ≥ 32768
      · have h2 : ¬ (-32768 ≤ (v : Int) ∧ (v : Int) ≤ 32767) := by omega
        rw [if_neg h2, if_pos hv]
        simp [hr]
      · have h2 : (-32768 ≤ (v : Int) ∧ (v : Int) ≤ 32767) := by omega
        rw [if_pos h2, if_pos hv]
        simp [hr]
    · have h2 : ¬ (-32768 ≤ (v : Int) ∧ (v : Int) ≤ 32767) := by omega
      rw [if_neg h2, if_neg hv]
      simp

/-- On any other string ParseInt returns an error. -/
theorem ParseInt_not_decimal (s : Str) (h : isDecimal s = false) :
    (ParseInt s 10 16).2 ≠ none := by
  by_cases hne : s = []
  · simp [hne, ParseInt]
  · have hbad : unsignedPart s = [] ∨ (unsignedPart s).all isDecDigit = false := by
      by_cases hu : unsignedPart s = []
      · exact Or.inl hu
      · right
        simpa [isDecimal, hu] using h
    rw [ParseInt_eq s hne]
    rcases ParseUint_not_digits _ hbad with h1 | h1
    · rw [h1]
      simp
    · rw [h1]
      cases hneg : isNegative s <;> simp

/-- ParseInt in base 10 with 16 bits succeeds exactly on the optionally signed
base-10 integers of the 16-bit range. -/
theorem ParseInt_ok_iff (s : Str) : (ParseInt s 10 16).2 = none ↔ IsInt16Decimal s := by
  cases h : isDecimal s with
  | false =>
    have := ParseInt_not_decimal s h
    simp [IsInt16Decimal, h, this]
  | true =>
    rw [ParseInt_decimal s h]
    by_cases hr : -32768 ≤ decimalValue s ∧ decimalValue s ≤ 32767
    · simp [IsInt16Decimal, h, hr]
    · rw [if_neg hr]
      simp only [IsInt16Decimal, h, true_and]
      simp [hr]

/-! ## Lemmas on the attribute map -/

theorem mapGet_lowerAttrs (attrs : List Attr) (m0 : GoMap Str) (key : Str) :
    mapGet [] (Client.lowerAttrs attrs m0) key =
      match (attrs.filter (fun v => ToLower v.Name.Local = key)).getLast? with
      | some a => a.Value
      | none => mapGet [] m0 key := by
  induction attrs generalizing m0 with
  | nil => simp [Client.lowerAttrs]
  | cons v rest ih =>
    simp only [Client.lowerAttrs, ih]
    generalize hL : List.filter (fun v => decide (ToLower v.Name.Local = key)) rest = L
    by_cases hv : ToLower v.Name.Local = key
    · have hf : List.filter (fun v => decide (ToLower v.Name.Local = key)) (v :: rest) = v :: L := by
        simp [List.filter_cons, hv, hL]
      rw [hf]
      cases L with
      | nil => simp [mapSet, mapGet, hv]
      | cons b t =>
        rw [List.getLast?_cons_cons]
        cases hl : (b :: t).getLast? with
        | none => simp at hl
        | some c => rfl
    · have hf : List.filter (fun v => decide (ToLower v.Name.Local = key)) (v :: rest) = L := by
        simp [List.filter_cons, hv, hL]
      rw [hf]
      cases hl : L.getLast? with
      | none => simp [mapSet, mapGet, hv]
      | some c => rfl

/-- The map built by ParseRetsResponseTag holds, under a lower-case key, the
value of the last attribute whose lower-cased name is that key. -/
theorem mapGet_lowerAttrs_nil (attrs : List Attr) (key : Str) :
    mapGet [] (Client.lowerAttrs attrs []) key = attrValue attrs key := by
  rw [mapGet_lowerAttrs, attrValue]
  rfl

theorem ParseRetsResponseTag_eq (start : StartElement) :
    Client.ParseRetsResponseTag start =
      match ParseInt (attrValue start.Attr (bytes "replycode")) 10 16 with
      | (_, some err) => (none, some err)
      | (code, none) =>
        (some { ReplyCode := code, ReplyText := attrValue start.Attr (bytes "replytext") }, none) := by
  simp only [Client.ParseRetsResponseTag, mapGet_lowerAttrs_nil]

/-! ## Lemmas on the hexadecimal decoder -/

set_option maxRecDepth 100000 in
theorem fromHexChar_of_isHexDigit :
    ∀ c : Byte, isHexDigit c = true →
      fromHexChar c = some (hexDigitValue c) ∧ hexDigitValue c ≤ 15 := by
  decide

set_option maxRecDepth 100000 in
theorem fromHexChar_of_not_isHexDigit :
    ∀ c : Byte, isHexDigit c = false → fromHexChar c = none := by
  decide

/-- A first attribute value longer than 2 bytes makes ParseDelimiterTag panic:
`strings.Repeat` receives a negative count. -/
theorem ParseDelimiterTag_long_value (start : StartElement) (a : Attr) (rest : List Attr)
    (hattr : start.Attr = a :: rest) (hlen : 2 < a.Value.length) :
    Client.ParseDelimiterTag start = none := by
  have hneg : (2 : Int) - (a.Value.length : Int) < 0 := by omega
  simp only [Client.ParseDelimiterTag, hattr, Repeat, if_pos hneg]

/-! ## Lemmas on the envelope scanner -/

/-- The loop drops every token that is not a start element named `RETS`. -/
theorem retsLoop_skip (e : GoError) (pre rest : List Token)
    (h : ∀ t, Token.StartElement t ∈ pre → t.Name.Local ≠ bytes "RETS") :
    Client.retsLoop e (pre ++ rest) = Client.retsLoop e rest := by
  induction pre with
  | nil => rfl
  | cons tok pre ih =>
    have hpre : ∀ t, Token.StartElement t ∈ pre → t.Name.Local ≠ bytes "RETS" :=
      fun t ht => h t (List.mem_cons_of_mem _ ht)
    cases tok with
    | StartElement t =>
      have ht : t.Name.Local ≠ bytes "RETS" := h t (List.mem_cons_self _ _)
      simp only [List.cons_append, Client.retsLoop, if_neg ht]
      exact ih hpre
    | EndElement n => simpa only [List.cons_append, Client.retsLoop] using ih hpre
    | CharData d => simpa only [List.cons_append, Client.retsLoop] using ih hpre
    | Comment d => simpa only [List.cons_append, Client.retsLoop] using ih hpre
    | ProcInst t i => simpa only [List.cons_append, Client.retsLoop] using ih hpre
    | Directive d => simpa only [List.cons_append, Client.retsLoop] using ih hpre

/-! ## Lemmas on the record assembler -/

theorem ParseCompactRow_length (row delim : Str) (fs : List Str)
    (h : Client.ParseCompactRow row delim = some fs) :
    fs.length + 2 = (Split row delim).length := by
  simp only [Client.ParseCompactRow, goSlice] at h
  split at h
  · rename_i hb
    simp only [Option.some.injEq] at h
    rw [← h]
    have h1 : (1 : Int).toNat = 1 := rfl
    simp only [List.length_take, List.length_drop, h1]
    omega
  · simp at h

/-- The splitter on a one-byte delimiter returns a list exactly on the rows
that contain the delimiter. -/
theorem ParseCompactRow_isSome_iff (d : Byte) (row : Str) :
    (Client.ParseCompactRow row [d]).isSome = true ↔ d ∈ row := by
  rw [ParseCompactRow_single, length_segments]
  by_cases h : d ∈ row
  · have : 0 < row.count d := List.count_pos_iff.mpr h
    have h2 : 2 ≤ row.count d + 1 := by omega
    simp [h, h2]
  · have : row.count d = 0 := List.count_eq_zero_of_not_mem h
    simp [h, this]

theorem extractRows_spec (delim : Str) (rows : List Str) (rs : List (List Str))
    (h : Client.extractRows delim rows = some rs) :
    rs.length = rows.length ∧
    ∀ (i : Nat) (line : Str), rows[i]? = some line →
      ∃ r, rs[i]? = some r ∧ Client.ParseCompactRow line delim = some r := by
  induction rows generalizing rs with
  | nil =>
    simp only [Client.extractRows, Option.some.injEq] at h
    subst h
    simp
  | cons l rest ih =>
    simp only [Client.extractRows] at h
    cases hl : Client.ParseCompactRow l delim with
    | none => simp [hl] at h
    | some r0 =>
      cases hrest : Client.extractRows delim rest with
      | none => simp [hl, hrest] at h
      | some rs0 =>
        simp only [hl, hrest, Option.some.injEq] at h
        subst h
        obtain ⟨hlen, hrow⟩ := ih rs0 hrest
        refine ⟨by simp [hlen], ?_⟩
        intro i line hi
        cases i with
        | zero =>
          simp only [List.getElem?_cons_zero, Option.some.injEq] at hi
          subst hi
          exact ⟨r0, by simp, hl⟩
        | succ i =>
          simp only [List.getElem?_cons_succ] at hi
          simpa using hrow i line hi

theorem extractRows_isSome (d : Byte) (rows : List Str) (h : ∀ line ∈ rows, d ∈ line) :
    ∃ rs, Client.extractRows [d] rows = some rs := by
  induction rows with
  | nil => exact ⟨[], rfl⟩
  | cons l rest ih =>
    have hl : (Client.ParseCompactRow l [d]).isSome = true :=
      (ParseCompactRow_isSome_iff d l).mpr (h l (by simp))
    obtain ⟨r0, hr0⟩ := Option.isSome_iff_exists.mp hl
    obtain ⟨rs0, hrs0⟩ := ih (fun line hm => h line (by simp [hm]))
    exact ⟨r0 :: rs0, by simp [Client.extractRows, hr0, hrs0]⟩

theorem extractMap_isSome (d : Byte) (cols : Str) (rows : List Str) (hc : d ∈ cols)
    (h : ∀ line ∈ rows, d ∈ line) :
    ∃ data, Client.extractMap cols rows [d] = some data := by
  have hl : (Client.ParseCompactRow cols [d]).isSome = true :=
    (ParseCompactRow_isSome_iff d cols).mpr hc
  obtain ⟨c0, hc0⟩ := Option.isSome_iff_exists.mp hl
  obtain ⟨rs0, hrs0⟩ := extractRows_isSome d rows h
  exact ⟨{ ID := [], Date := [], Version := [], Columns := c0, Rows := rs0 },
    by simp [Client.extractMap, hc0, hrs0]⟩

/-- With no decoding error and a non-empty COLUMNS, ParseMetadataCompactDecoded
panics when extractMap does and otherwise returns its record with Date,
Version and ID filled in, and no error. -/
theorem ParseMetadataCompactDecoded_eq (xme : Client.XMLMetadataElement) (delim : Str)
    (hcols : xme.Columns ≠ []) :
    Client.ParseMetadataCompactDecoded xme none delim =
      match Client.extractMap xme.Columns xme.Data delim with
      | none => none
      | some data =>
        some (some
          { ID := if xme.Lookup ≠ [] then xme.Resource ++ bytes ":" ++ xme.Lookup
                  else if xme.Class ≠ [] then xme.Resource ++ bytes ":" ++ xme.Class
                  else xme.Resource,
            Date := xme.Date, Version := xme.Version,
            Columns := data.Columns, Rows := data.Rows }, none) := by
  simp only [Client.ParseMetadataCompactDecoded, if_neg hcols]
  cases Client.extractMap xme.Columns xme.Data delim with
  | none => rfl
  | some data =>
    by_cases hL : xme.Lookup = [] <;> by_cases hC : xme.Class = [] <;> simp [hL, hC]

/-! ## Lemmas on the dropped bounding segments -/

theorem exists_first_last {α : Type} (l : List α) (h : 2 ≤ l.length) :
    ∃ first fs last, l = first :: (fs ++ [last]) := by
  cases l with
  | nil => simp at h
  | cons first tl =>
    have htl : tl ≠ [] := by
      intro e
      simp [e] at h
    exact ⟨first, tl.dropLast, tl.getLast htl, by rw [List.dropLast_append_getLast htl]⟩

/-- The slice `split[1 : len(split)-1]` of a split with a first and a last
segment holds what lies between them. -/
theorem ParseCompactRow_of_first_last (row delim : Str) (first last : Str) (fs : List Str)
    (h : Split row delim = first :: (fs ++ [last])) :
    Client.ParseCompactRow row delim = some fs := by
  simp only [Client.ParseCompactRow, goSlice, h]
  have hb : (0 : Int) ≤ 1 ∧ (1 : Int) ≤ ((first :: (fs ++ [last])).length : Int) - 1 ∧
      ((first :: (fs ++ [last])).length : Int) - 1 ≤ ((first :: (fs ++ [last])).length : Int) := by
    simp only [List.length_cons, List.length_append, List.length_nil]
    omega
  have h1 : (1 : Int).toNat = 1 := rfl
  have h2 : (((first :: (fs ++ [last])).length : Int) - 1).toNat - 1 = fs.length := by
    simp only [List.length_cons, List.length_append, List.length_nil]
    omega
  rw [if_pos hb, h1, h2]
  simp

theorem genSplitLoop_length_pos (sep : Str) (k : Nat) (s : Str) :
    1 ≤ (genSplitLoop sep k s).length := by
  cases k with
  | zero => simp [genSplitLoop]
  | succ k =>
    unfold genSplitLoop
    split <;> simp

/-- A row that contains a non-empty delimiter splits into two segments or more. -/
theorem Split_length_of_Index (row delim : Str) (hne : delim ≠ [])
    (h : Index row delim ≠ none) : 2 ≤ (Split row delim).length := by
  obtain ⟨i, hi⟩ := Option.ne_none_iff_exists.mp h
  have hle := Index_add_le row delim i hi.symm
  have hpos : 0 < delim.length := List.length_pos.mpr hne
  obtain ⟨k, hk⟩ : ∃ k, row.length = k + 1 := ⟨row.length - 1, by omega⟩
  have hcount : Count row delim =
      1 + countLoop delim k (row.drop (i + delim.length)) := by
    simp only [Count, hk, countLoop, ← hi]
  have hlen := genSplitLoop_length_pos delim
    (countLoop delim k (row.drop (i + delim.length))) (row.drop (i + delim.length))
  simp only [Split, if_neg hne, hcount, Nat.add_comm 1, genSplitLoop, ← hi, List.length_cons]
  omega

/-- The splitter returns a list on every row that contains the non-empty
delimiter. -/
theorem ParseCompactRow_isSome_of_Index (row delim : Str) (hne : delim ≠ [])
    (h : Index row delim ≠ none) : ∃ fs, Client.ParseCompactRow row delim = some fs := by
  obtain ⟨first, fs, last, hs⟩ := exists_first_last _ (Split_length_of_Index row delim hne h)
  exact ⟨fs, ParseCompactRow_of_first_last row delim first last fs hs⟩

theorem extractRows_isSome_of (delim : Str) (rows : List Str)
    (h : ∀ line ∈ rows, ∃ r, Client.ParseCompactRow line delim = some r) :
    ∃ rs, Client.extractRows delim rows = some rs := by
  induction rows with
  | nil => exact ⟨[], rfl⟩
  | cons l rest ih =>
    obtain ⟨r0, hr0⟩ := h l (by simp)
    obtain ⟨rs0, hrs0⟩ := ih (fun line hm => h line (by simp [hm]))
    exact ⟨r0 :: rs0, by simp [Client.extractRows, hr0, hrs0]⟩

/-- One line on which the splitter panics makes the loop of extractMap panic. -/
theorem extractRows_none (delim : Str) (rows : List Str) (line : Str) (hmem : line ∈ rows)
    (h : Client.ParseCompactRow line delim = none) : Client.extractRows delim rows = none := by
  induction rows with
  | nil => simp at hmem
  | cons l rest ih =>
    simp only [Client.extractRows]
    cases hl : Client.ParseCompactRow l delim with
    | none => rfl
    | some r =>
      have hrest : line ∈ rest := by
        rcases List.mem_cons.mp hmem with e | e
        · rw [e, hl] at h
          simp at h
        · exact e
      simp [ih hrest]

theorem ParseCompactRow_none_of_not_mem (d : Byte) (row : Str) (h : d ∉ row) :
    Client.ParseCompactRow row [d] = none := by
  have := (ParseCompactRow_isSome_iff d row).not.mpr h
  simpa using this

/-! ## Lemmas on the legacy splitter of `metadata.go` -/

theorem flatMap_eq_joinFields (d : Byte) (fields : List Str) (hne : fields ≠ []) :
    fields.flatMap (fun f => f ++ [d]) = joinFields d fields ++ [d] := by
  induction fields with
  | nil => exact absurd rfl hne
  | cons f fs ih =>
    cases fs with
    | nil => simp [joinFields]
    | cons g gs =>
      have := ih (by simp)
      simp only [List.flatMap_cons] at this ⊢
      simp [joinFields, this]

theorem segments_joinFields (d : Byte) (fields : List Str) (hne : fields ≠ [])
    (hfree : ∀ f ∈ fields, d ∉ f) : segments d (joinFields d fields) = fields := by
  induction fields with
  | nil => exact absurd rfl hne
  | cons f fs ih =>
    have hf : d ∉ f := hfree f (by simp)
    cases fs with
    | nil => simp [joinFields, segments_of_not_mem d f hf]
    | cons g gs =>
      have := ih (by simp) (fun x hx => hfree x (by simp [hx]))
      simp [joinFields, segments_append_sep d f _ hf, this]

theorem joinFields_head (d : Byte) (fields : List Str) (f1 : Str)
    (hfirst : fields.head? = some f1) (h1 : f1 ≠ []) (hfree : d ∉ f1) :
    ∃ c tl, joinFields d fields = c :: tl ∧ c ≠ d := by
  cases f1 with
  | nil => exact absurd rfl h1
  | cons c t =>
    have hc : c ≠ d := fun e => hfree (by simp [e])
    cases fields with
    | nil => simp at hfirst
    | cons f fs =>
      have hf : f = c :: t := by simpa using hfirst
      cases fs with
      | nil => exact ⟨c, t, by simp [joinFields, hf], hc⟩
      | cons g gs => exact ⟨c, t ++ d :: joinFields d (g :: gs), by simp [joinFields, hf], hc⟩

theorem joinFields_last (d : Byte) (fields : List Str) (fn : Str)
    (hlast : fields.getLast? = some fn) (hn : fn ≠ []) (hfree : d ∉ fn) :
    ∃ init c, joinFields d fields = init ++ [c] ∧ c ≠ d := by
  induction fields with
  | nil => simp at hlast
  | cons f fs ih =>
    cases fs with
    | nil =>
      have hf : f = fn := by simpa using hlast
      have hc : fn.getLast hn ≠ d := fun e => hfree (e ▸ List.getLast_mem hn)
      exact ⟨fn.dropLast, fn.getLast hn,
        by simp [joinFields, hf, List.dropLast_append_getLast hn], hc⟩
    | cons g gs =>
      have hl : (g :: gs).getLast? = some fn := by
        rw [List.getLast?_cons_cons] at hlast
        exact hlast
      obtain ⟨init, c, hj, hc⟩ := ih hl
      exact ⟨f ++ d :: init, c, by simp [joinFields, hj], hc⟩

/-- Trimming the byte `d` off a string bounded by one `d` on each side, whose
inside neither starts nor ends with `d`, leaves the inside. -/
theorem Trim_bounded (d c c2 : Byte) (tl init body : Str) (hb1 : body = c :: tl)
    (hb2 : body = init ++ [c2]) (hc : c ≠ d) (hc2 : c2 ≠ d) :
    Trim (d :: (body ++ [d])) [d] = body := by
  have h1 : List.dropWhile (fun x => decide (x ∈ [d])) (d :: (body ++ [d])) = body ++ [d] := by
    rw [hb1]
    simp [List.dropWhile_cons, hc]
  have h2 : List.dropWhile (fun x => decide (x ∈ [d])) (body ++ [d]).reverse = body.reverse := by
    rw [hb2]
    simp [List.dropWhile_cons, hc2]
  simp only [Trim, h1, h2, List.reverse_reverse]

/-! ## The claims -/

namespace Client

/-- C1. Round trip of the compact row format: for a one-byte delimiter `d` and
a list of fields none of which contains `d` (non-empty or not), ParseCompactRow
applied to `d + f1 + d + ... + d + fn + d` returns exactly `[f1, ..., fn]`. -/
theorem parseCompactRow_roundtrip (d : Byte) (fields : List Str)
    (hfree : ∀ f ∈ fields, d ∉ f) :
    ParseCompactRow (compactRow d fields) [d] = some fields := by
  have hseg : segments d (compactRow d fields) = [] :: (fields ++ [[]]) := by
    have := segments_append_sep d [] (fields.flatMap (fun f => f ++ [d])) (by simp)
    simpa [compactRow, segments_flatMap d fields hfree] using this
  rw [ParseCompactRow_single, hseg]
  simp

/-- C1, at the delimiter `|` and the row `|a|b|c|`: the fields are `a`, `b`, `c`. -/
theorem parseCompactRow_roundtrip_witness :
    [bytes "a", bytes "b", bytes "c"] ≠ [] ∧
    (∀ f ∈ [bytes "a", bytes "b", bytes "c"], (0x7C : Byte) ∉ f) ∧
    compactRow 0x7C [bytes "a", bytes "b", bytes "c"] = bytes "|a|b|c|" ∧
    ParseCompactRow (bytes "|a|b|c|") (bytes "|") = some [bytes "a", bytes "b", bytes "c"] :=
  ⟨by decide, by decide, by decide,
    parseCompactRow_roundtrip 0x7C [bytes "a", bytes "b", bytes "c"] (by decide)⟩

/-- C10, as stated, fails: on the row `||` with the delimiter `|` the splitter
returns one empty field, not the empty list. -/
theorem parseCompactRow_two_delims_counterexample :
    ParseCompactRow (bytes "||") (bytes "|") = some [bytes ""] ∧
    ParseCompactRow (bytes "||") (bytes "|") ≠ some [] := by
  decide

/-- C10, amended: for every one-byte delimiter `d` the row `d + d` yields the
list holding one empty field. -/
theorem parseCompactRow_two_delims (d : Byte) :
    ParseCompactRow [d, d] [d] = some [[]] := by
  rw [ParseCompactRow_single]
  simp [segments]

/-- C3. For a record with pairwise distinct column names, the lookup built by
Indexer returns, for the name at column position `i` and a row position `r`
whose row has a field at position `i`, that field `Rows[r][i]`; the same holds
for the Indexer of `metadata.go`. -/
theorem indexer_lookup (m : CompactData) (i r : Nat) (c v : Str) (row : List Str)
    (hnodup : m.Columns.Nodup) (hc : m.Columns[i]? = some c)
    (hr : m.Rows[r]? = some row) (hv : row[i]? = some v) :
    m.Indexer c (r : Int) = some v ∧
    (Metadata.MData.mk m.Version m.Date m.Columns m.Rows).Indexer c (r : Int) = some v := by
  have hlast : ∀ k, i < k → m.Columns[k]? ≠ some c := by
    intro k hk hck
    have hne := (List.nodup_iff_getElem?_ne_getElem?.mp hnodup) i k hk
      (by
        by_contra hlen
        have : m.Columns[k]? = none := List.getElem?_eq_none (Nat.le_of_not_lt hlen)
        simp [this] at hck)
    exact hne (hc.trans hck.symm)
  have hidx := mapGet_indexLoop_last m.Columns 0 [] i c hc hlast
  simp only [Nat.zero_add] at hidx
  simp [CompactData.Indexer, Metadata.MData.Indexer, goIndex_natCast, hr, hidx, hv]

/-- C3, at the record with columns `ResourceID`, `StandardName` and the row
`PropertyA`, `RESI`: the lookup of `StandardName` in row 0 is `RESI`. -/
theorem indexer_lookup_witness :
    (CompactData.mk [] [] [] [bytes "ResourceID", bytes "StandardName"]
      [[bytes "PropertyA", bytes "RESI"]]).Indexer (bytes "StandardName") 0 = some (bytes "RESI") :=
  (indexer_lookup
    (CompactData.mk [] [] [] [bytes "ResourceID", bytes "StandardName"]
      [[bytes "PropertyA", bytes "RESI"]])
    1 0 (bytes "StandardName") (bytes "RESI") [bytes "PropertyA", bytes "RESI"]
    (by decide) (by decide) (by decide) (by decide)).1

/-- C7, as stated, fails: the lookup of the unknown column `Missing` in row 0
returns the field of column 0, `PropertyA`, instead of failing. -/
theorem indexer_unknown_column_counterexample :
    bytes "Missing" ∉ [bytes "ResourceID", bytes "StandardName"] ∧
    (CompactData.mk [] [] [] [bytes "ResourceID", bytes "StandardName"]
      [[bytes "PropertyA", bytes "RESI"]]).Indexer (bytes "Missing") 0
      = some (bytes "PropertyA") := by
  decide

/-- C7, amended: for a column name that does not occur in Columns the lookup
reads position 0 of the row: for every row position, it returns `Rows[r][0]`
when the row exists and is not empty, and panics otherwise. -/
theorem indexer_unknown_column (m : CompactData) (col : Str) (hcol : col ∉ m.Columns)
    (row : Int) :
    m.Indexer col row =
      match goIndex m.Rows row with
      | none => none
      | some r => r[0]? := by
  have hidx := mapGet_indexLoop_of_not_mem m.Columns 0 [] col hcol
  simp only [CompactData.Indexer, hidx, mapGet]
  cases goIndex m.Rows row with
  | none => rfl
  | some r => simp [goIndex]

/-- C7 amended, at the record of the specification: `Missing` is not a column
and its lookup in row 0 is `PropertyA`, the first field of the row. -/
theorem indexer_unknown_column_witness :
    (CompactData.mk [] [] [] [bytes "ResourceID", bytes "StandardName"]
      [[bytes "PropertyA", bytes "RESI"]]).Indexer (bytes "Missing") 0 =
      some (bytes "PropertyA") :=
  (indexer_unknown_column
    (CompactData.mk [] [] [] [bytes "ResourceID", bytes "StandardName"]
      [[bytes "PropertyA", bytes "RESI"]]) (bytes "Missing") (by decide) 0).trans (by decide)

/-- C9, as stated, fails: with the column name `a` at positions 0 and 1 and
the row `x`, `y`, the lookup of `a` returns `y`, the field at the last
occurrence, not `x`, the field at the first. -/
theorem indexer_duplicate_counterexample :
    (CompactData.mk [] [] [] [bytes "a", bytes "a"] [[bytes "x", bytes "y"]]).Indexer
      (bytes "a") 0 = some (bytes "y") ∧
    (CompactData.mk [] [] [] [bytes "a", bytes "a"] [[bytes "x", bytes "y"]]).Indexer
      (bytes "a") 0 ≠ some (bytes "x") ∧
    (Metadata.MData.mk [] [] [bytes "a", bytes "a"] [[bytes "x", bytes "y"]]).Indexer
      (bytes "a") 0 ≠ some (bytes "x") := by
  decide

/-- C9, amended: for a column name `c` and the position `j` of its LAST
occurrence in Columns, the lookup of `c` in a row position `r` whose row has a
field at position `j` returns `Rows[r][j]`; the same holds for the Indexer of
`metadata.go`. -/
theorem indexer_duplicate_last (m : CompactData) (j r : Nat) (c v : Str) (row : List Str)
    (hc : m.Columns[j]? = some c) (hlast : ∀ k, j < k → m.Columns[k]? ≠ some c)
    (hr : m.Rows[r]? = some row) (hv : row[j]? = some v) :
    m.Indexer c (r : Int) = some v ∧
    (Metadata.MData.mk m.Version m.Date m.Columns m.Rows).Indexer c (r : Int) = some v := by
  have hidx := mapGet_indexLoop_last m.Columns 0 [] j c hc hlast
  simp only [Nat.zero_add] at hidx
  simp [CompactData.Indexer, Metadata.MData.Indexer, goIndex_natCast, hr, hidx, hv]

/-- C9 amended, at the columns `a`, `b`, `a` and the row `x`, `y`, `z`: the
last occurrence of `a` is position 2 and its lookup is `z`. -/
theorem indexer_duplicate_last_witness :
    (CompactData.mk [] [] [] [bytes "a", bytes "b", bytes "a"]
      [[bytes "x", bytes "y", bytes "z"]]).Indexer (bytes "a") 0 = some (bytes "z") :=
  (indexer_duplicate_last
    (CompactData.mk [] [] [] [bytes "a", bytes "b", bytes "a"]
      [[bytes "x", bytes "y", bytes "z"]])
    2 0 (bytes "a") (bytes "z") [bytes "x", bytes "y", bytes "z"]
    (by decide)
    (by
      intro k hk
      rw [List.getElem?_eq_none (by simpa using hk)]
      simp)
    (by decide) (by decide)).1

/-- C5. Case-insensitive envelope attributes: for a start element with exactly
one attribute `a` whose lower-cased name is `replycode`, its value an optionally
signed base-10 integer of the 16-bit range, and at most one attribute whose
lower-cased name is `replytext`, ParseRetsResponseTag returns no error,
ReplyCode the integer the value denotes and ReplyText the value of the
`replytext` attribute, the empty string when there is none. -/
theorem parseRetsResponseTag_attrs (start : StartElement) (a : Attr) (text : Str)
    (hcode : start.Attr.filter (fun v => ToLower v.Name.Local = bytes "replycode") = [a])
    (hint : IsInt16Decimal a.Value)
    (htext :
      (start.Attr.filter (fun v => ToLower v.Name.Local = bytes "replytext") = [] ∧ text = []) ∨
      (∃ b, start.Attr.filter (fun v => ToLower v.Name.Local = bytes "replytext") = [b] ∧
        text = b.Value)) :
    ParseRetsResponseTag start =
      (some { ReplyCode := decimalValue a.Value, ReplyText := text }, none) := by
  have hc : attrValue start.Attr (bytes "replycode") = a.Value := by
    simp [attrValue, hcode]
  have ht : attrValue start.Attr (bytes "replytext") = text := by
    rcases htext with ⟨h, e⟩ | ⟨b, h, e⟩
    · simp [attrValue, h, e]
    · simp [attrValue, h, e]
  rw [ParseRetsResponseTag_eq, hc, ht, ParseInt_decimal a.Value hint.1, if_pos hint.2]

/-- C5, at `ReplyCode="0" ReplyText="Success"` written with mixed-case names
(`replyCODE`, `REPLYTEXT`): the result is code 0 and text `Success`. -/
theorem parseRetsResponseTag_attrs_witness :
    ParseRetsResponseTag
      ⟨⟨[], bytes "RETS"⟩,
        [⟨⟨[], bytes "replyCODE"⟩, bytes "0"⟩, ⟨⟨[], bytes "REPLYTEXT"⟩, bytes "Success"⟩]⟩ =
      (some { ReplyCode := 0, ReplyText := bytes "Success" }, none) :=
  parseRetsResponseTag_attrs
    ⟨⟨[], bytes "RETS"⟩,
      [⟨⟨[], bytes "replyCODE"⟩, bytes "0"⟩, ⟨⟨[], bytes "REPLYTEXT"⟩, bytes "Success"⟩]⟩
    ⟨⟨[], bytes "replyCODE"⟩, bytes "0"⟩ (bytes "Success")
    (by decide) (by decide)
    (Or.inr ⟨⟨⟨[], bytes "REPLYTEXT"⟩, bytes "Success"⟩, by decide, by decide⟩)

/-- C6. ParseRetsResponseTag fails exactly on a bad reply code: it returns an
error if and only if the value of the attribute whose lower-cased name is
`replycode` (the empty string when absent) is not an optionally signed base-10
integer of the range `[-32768, 32767]`; with an error it returns no
RetsResponse, without one it returns a RetsResponse, and every ReplyCode it
returns lies in that range. -/
theorem parseRetsResponseTag_error_iff (start : StartElement) :
    ((ParseRetsResponseTag start).2 ≠ none ↔
      ¬ IsInt16Decimal (attrValue start.Attr (bytes "replycode"))) ∧
    ((ParseRetsResponseTag start).2 ≠ none → (ParseRetsResponseTag start).1 = none) ∧
    ((ParseRetsResponseTag start).2 = none → (ParseRetsResponseTag start).1 ≠ none) ∧
    (∀ r, (ParseRetsResponseTag start).1 = some r →
      -32768 ≤ r.ReplyCode ∧ r.ReplyCode ≤ 32767) := by
  have hiff := ParseInt_ok_iff (attrValue start.Attr (bytes "replycode"))
  rw [ParseRetsResponseTag_eq]
  by_cases hdec : IsInt16Decimal (attrValue start.Attr (bytes "replycode"))
  · rw [ParseInt_decimal _ hdec.1, if_pos hdec.2]
    refine ⟨by simp [hdec], by simp, by simp, ?_⟩
    intro r hr
    simp only [Option.some.injEq] at hr
    rw [← hr]
    exact hdec.2
  · have herr : (ParseInt (attrValue start.Attr (bytes "replycode")) 10 16).2 ≠ none :=
      fun h => hdec (hiff.mp h)
    rcases hp : ParseInt (attrValue start.Attr (bytes "replycode")) 10 16 with ⟨code, e⟩
    rw [hp] at herr
    cases e with
    | none => exact absurd rfl herr
    | some err => simp [hdec]

/-- C2. For a start element whose first attribute value consists of 1 or 2
hexadecimal digits, ParseDelimiterTag returns no error and a string of exactly
one byte, whose numeric value is the attribute value read in base 16 (so a
single digit counts as if preceded by `0`). -/
theorem parseDelimiterTag_hex (start : StartElement) (a : Attr) (rest : List Attr)
    (hattr : start.Attr = a :: rest)
    (hlen : a.Value.length = 1 ∨ a.Value.length = 2)
    (hhex : ∀ c ∈ a.Value, isHexDigit c = true) :
    ∃ b : Byte, ParseDelimiterTag start = some ([b], none) ∧ b.val = hexValue a.Value := by
  have hzero : fromHexChar 0x30 = some 0 := by decide
  rcases hlen with h1 | h2
  · obtain ⟨c, hc⟩ := List.length_eq_one.mp h1
    have hcd := fromHexChar_of_isHexDigit c (hhex c (by simp [hc]))
    refine ⟨Fin.ofNat (0 * 16 + hexDigitValue c), ?_, ?_⟩
    · have hpad : Repeat (bytes "0") (2 - ((([c] : Str).length : Nat) : Int)) = some [0x30] :=
        rfl
      simp only [ParseDelimiterTag, hattr, hpad, hc, DecodeString, List.singleton_append,
        hexDecodeLoop, hzero, hcd.1, List.nil_append]
    · have := hcd.2
      simp only [Fin.ofNat, hexValue, hc, List.foldl_cons, List.foldl_nil]
      omega
  · obtain ⟨h, l, hv⟩ := List.length_eq_two.mp h2
    have hh := fromHexChar_of_isHexDigit h (hhex h (by simp [hv]))
    have hl := fromHexChar_of_isHexDigit l (hhex l (by simp [hv]))
    refine ⟨Fin.ofNat (hexDigitValue h * 16 + hexDigitValue l), ?_, ?_⟩
    · have hpad : Repeat (bytes "0") (2 - ((([h, l] : Str).length : Nat) : Int)) = some [] :=
        rfl
      simp only [ParseDelimiterTag, hattr, hpad, hv, DecodeString, List.nil_append,
        hexDecodeLoop, hh.1, hl.1]
    · have := hh.2
      have := hl.2
      simp only [Fin.ofNat, hexValue, hv, List.foldl_cons, List.foldl_nil]
      omega

set_option maxRecDepth 100000 in
/-- C2, at the attribute values `9` and `fF`: the delimiters are the bytes 9
(the tab) and 255. -/
theorem parseDelimiterTag_hex_witness :
    (∃ b : Byte, ParseDelimiterTag ⟨⟨[], bytes "DELIMITER"⟩, [⟨⟨[], bytes "value"⟩, bytes "9"⟩]⟩
        = some ([b], none) ∧ b.val = hexValue (bytes "9")) ∧
    hexValue (bytes "9") = 9 ∧
    (∃ b : Byte, ParseDelimiterTag ⟨⟨[], bytes "DELIMITER"⟩, [⟨⟨[], bytes "value"⟩, bytes "fF"⟩]⟩
        = some ([b], none) ∧ b.val = hexValue (bytes "fF")) ∧
    hexValue (bytes "fF") = 255 :=
  ⟨parseDelimiterTag_hex ⟨⟨[], bytes "DELIMITER"⟩, [⟨⟨[], bytes "value"⟩, bytes "9"⟩]⟩
      ⟨⟨[], bytes "value"⟩, bytes "9"⟩ [] rfl (by decide) (by decide),
    by decide,
    parseDelimiterTag_hex ⟨⟨[], bytes "DELIMITER"⟩, [⟨⟨[], bytes "value"⟩, bytes "fF"⟩]⟩
      ⟨⟨[], bytes "value"⟩, bytes "fF"⟩ [] rfl (by decide) (by decide),
    by decide⟩

/-- C4. Identifier construction: for a decoded element with non-empty COLUMNS,
every record ParseMetadataCompactDecoded returns, whatever the delimiter, has
ID `Resource + ":" + Lookup` when Lookup is non-empty, else
`Resource + ":" + Class` when Class is non-empty, else `Resource`; and a record
is returned, with no error, whenever the header and every DATA row contain the
one-byte delimiter. -/
theorem parseMetadataCompactDecoded_id (xme : XMLMetadataElement) (hcols : xme.Columns ≠ []) :
    (∀ delim data e, ParseMetadataCompactDecoded xme none delim = some (some data, e) →
      data.ID =
        if xme.Lookup ≠ [] then xme.Resource ++ bytes ":" ++ xme.Lookup
        else if xme.Class ≠ [] then xme.Resource ++ bytes ":" ++ xme.Class
        else xme.Resource) ∧
    (∀ d : Byte, d ∈ xme.Columns → (∀ line ∈ xme.Data, d ∈ line) →
      ∃ data, ParseMetadataCompactDecoded xme none [d] = some (some data, none)) := by
  constructor
  · intro delim data e h
    rw [ParseMetadataCompactDecoded_eq xme delim hcols] at h
    cases hx : extractMap xme.Columns xme.Data delim with
    | none => simp [hx] at h
    | some d0 =>
      simp only [hx, Option.some.injEq, Prod.mk.injEq] at h
      rw [← h.1]
  · intro d hc hd
    obtain ⟨d0, hd0⟩ := extractMap_isSome d xme.Columns xme.Data hc hd
    rw [ParseMetadataCompactDecoded_eq xme [d] hcols, hd0]
    exact ⟨_, rfl⟩

/-- C4, at Resource `Property`, Class `RES`, Lookup `Status`, header `|a|` and
no DATA, with the delimiter `|`: a record is returned and its ID is
`Property:Status`. -/
theorem parseMetadataCompactDecoded_id_witness :
    ∃ data,
      ParseMetadataCompactDecoded
        ⟨bytes "Property", bytes "RES", bytes "Status", bytes "1", bytes "d", bytes "|a|", []⟩
        none (bytes "|") = some (some data, none) ∧
      data.ID = bytes "Property:Status" := by
  have h := parseMetadataCompactDecoded_id
    ⟨bytes "Property", bytes "RES", bytes "Status", bytes "1", bytes "d", bytes "|a|", []⟩
    (by decide)
  obtain ⟨data, hdata⟩ := h.2 0x7C (by decide) (by decide)
  exact ⟨data, hdata, (h.1 (bytes "|") data none hdata).trans (by decide)⟩

/-- C8, as stated, fails: with the header `|a|b|`, the single DATA row `|x|`
and the delimiter `|`, a record is returned without error whose row has one
field while there are two columns. -/
theorem row_shape_counterexample :
    ∃ data,
      ParseMetadataCompactDecoded
        ⟨bytes "Property", [], [], bytes "1", bytes "d", bytes "|a|b|", [bytes "|x|"]⟩
        none (bytes "|") = some (some data, none) ∧
      extractMap (bytes "|a|b|") [bytes "|x|"] (bytes "|") =
        some ⟨[], [], [], data.Columns, data.Rows⟩ ∧
      data.Columns.length = 2 ∧ data.Rows = [[bytes "x"]] :=
  ⟨⟨bytes "Property", bytes "d", bytes "1", [bytes "a", bytes "b"], [[bytes "x"]]⟩,
    by decide, by decide, by decide, by decide⟩

/-- C8, amended: a record is produced, with no error, whenever extractMap does
not panic; it has one row per DATA entry, and the length of its header and of
each row is fixed by the split of that line alone (two less than its number of
segments), so a row has the length of Columns exactly when its line splits
into as many segments as the header, and a row of another length is kept. -/
theorem row_shape_unchecked (xme : XMLMetadataElement) (delim : Str) (data : CompactData)
    (hcols : xme.Columns ≠ [])
    (h : extractMap xme.Columns xme.Data delim = some data) :
    (∃ record, ParseMetadataCompactDecoded xme none delim = some (some record, none) ∧
      record.Columns = data.Columns ∧ record.Rows = data.Rows) ∧
    data.Columns.length + 2 = (Split xme.Columns delim).length ∧
    data.Rows.length = xme.Data.length ∧
    (∀ (i : Nat) (line : Str), xme.Data[i]? = some line →
      ∃ r, data.Rows[i]? = some r ∧ r.length + 2 = (Split line delim).length ∧
        (r.length = data.Columns.length ↔
          (Split line delim).length = (Split xme.Columns delim).length)) := by
  have hrec := ParseMetadataCompactDecoded_eq xme delim hcols
  rw [h] at hrec
  simp only [extractMap] at h
  cases hc : ParseCompactRow xme.Columns delim with
  | none => simp [hc] at h
  | some columns =>
    cases hr : extractRows delim xme.Data with
    | none => simp [hc, hr] at h
    | some rs =>
      simp only [hc, hr, Option.some.injEq] at h
      subst h
      have hclen := ParseCompactRow_length xme.Columns delim columns hc
      obtain ⟨hlen, hrows⟩ := extractRows_spec delim xme.Data rs hr
      refine ⟨⟨_, hrec, rfl, rfl⟩, hclen, hlen, ?_⟩
      intro i line hi
      obtain ⟨r, hri, hpr⟩ := hrows i line hi
      have hrlen := ParseCompactRow_length line delim r hpr
      exact ⟨r, hri, hrlen, by constructor <;> intro hh <;> simp only at hh ⊢ <;> omega⟩

/-- C8 amended, at the header `|a|b|`, the DATA row `|x|` and the delimiter
`|`: the record is returned with its two columns and its one-field row. -/
theorem row_shape_unchecked_witness :
    ∃ record,
      ParseMetadataCompactDecoded
        ⟨bytes "Property", [], [], bytes "1", bytes "d", bytes "|a|b|", [bytes "|x|"]⟩
        none (bytes "|") = some (some record, none) ∧
      record.Columns = [bytes "a", bytes "b"] ∧ record.Rows = [[bytes "x"]] :=
  (row_shape_unchecked
    ⟨bytes "Property", [], [], bytes "1", bytes "d", bytes "|a|b|", [bytes "|x|"]⟩
    (bytes "|") ⟨[], [], [], [bytes "a", bytes "b"], [[bytes "x"]]⟩
    (by decide) (by decide)).1

/-- C11. Empty COLUMNS means no record: for a decoded element (no decoding
error) whose COLUMNS text is empty, whatever its DATA entries, its attributes
and the delimiter, ParseMetadataCompactDecoded returns no record and no error;
no row is split, so a DATA entry on which the splitter would panic does not
matter. -/
theorem parseMetadataCompactDecoded_empty_columns (xme : XMLMetadataElement) (delim : Str)
    (hcols : xme.Columns = []) :
    ParseMetadataCompactDecoded xme none delim = some (none, none) := by
  simp [ParseMetadataCompactDecoded, hcols]

/-- C11, at an element with empty COLUMNS and a DATA entry without the
delimiter `|`: the splitter panics on that entry, yet the result is no record
and no error. -/
theorem parseMetadataCompactDecoded_empty_columns_witness :
    ParseCompactRow (bytes "no delimiter here") (bytes "|") = none ∧
    ParseMetadataCompactDecoded
      ⟨bytes "Property", bytes "RES", [], bytes "1", bytes "d", [], [bytes "no delimiter here"]⟩
      none (bytes "|") = some (none, none) :=
  ⟨by decide,
    parseMetadataCompactDecoded_empty_columns
      ⟨bytes "Property", bytes "RES", [], bytes "1", bytes "d", [], [bytes "no delimiter here"]⟩
      (bytes "|") rfl⟩

/-- C12. For a start element whose first attribute value has length 1 or 2 and
holds a byte that is not a hexadecimal digit, ParseDelimiterTag returns an
error together with the empty string. -/
theorem parseDelimiterTag_non_hex (start : StartElement) (a : Attr) (rest : List Attr)
    (hattr : start.Attr = a :: rest)
    (hlen : a.Value.length = 1 ∨ a.Value.length = 2)
    (hbad : ∃ c ∈ a.Value, isHexDigit c = false) :
    ∃ e, ParseDelimiterTag start = some ([], some e) := by
  have hzero : fromHexChar 0x30 = some 0 := by decide
  obtain ⟨c, hc, hcbad⟩ := hbad
  rcases hlen with h1 | h2
  · obtain ⟨x, hx⟩ := List.length_eq_one.mp h1
    have hcx : c = x := by simpa [hx] using hc
    subst hcx
    have hnone := fromHexChar_of_not_isHexDigit c hcbad
    have hpad : Repeat (bytes "0") (2 - ((([c] : Str).length : Nat) : Int)) = some [0x30] :=
      rfl
    exact ⟨.hexInvalidByte c, by
      simp only [ParseDelimiterTag, hattr, hpad, hx, DecodeString, List.singleton_append,
        hexDecodeLoop, hzero, hnone]⟩
  · obtain ⟨h, l, hv⟩ := List.length_eq_two.mp h2
    have hpad : Repeat (bytes "0") (2 - ((([h, l] : Str).length : Nat) : Int)) = some [] :=
      rfl
    cases hh : isHexDigit h with
    | false =>
      have hnone := fromHexChar_of_not_isHexDigit h hh
      exact ⟨.hexInvalidByte h, by
        simp only [ParseDelimiterTag, hattr, hpad, hv, DecodeString, List.nil_append,
          hexDecodeLoop, hnone]⟩
    | true =>
      have hsome := (fromHexChar_of_isHexDigit h hh).1
      have hcl : c = l := by
        have : c = h ∨ c = l := by simpa [hv] using hc
        rcases this with e | e
        · rw [e, hh] at hcbad
          exact absurd hcbad (by decide)
        · exact e
      subst hcl
      have hnone := fromHexChar_of_not_isHexDigit c hcbad
      exact ⟨.hexInvalidByte c, by
        simp only [ParseDelimiterTag, hattr, hpad, hv, DecodeString, List.nil_append,
          hexDecodeLoop, hsome, hnone]⟩

set_option maxRecDepth 100000 in
/-- C12, at the attribute values `g` and `0g`: both give the error for the
invalid byte `g` and the empty string. -/
theorem parseDelimiterTag_non_hex_witness :
    (∃ e, ParseDelimiterTag ⟨⟨[], bytes "DELIMITER"⟩, [⟨⟨[], bytes "value"⟩, bytes "g"⟩]⟩
      = some ([], some e)) ∧
    ParseDelimiterTag ⟨⟨[], bytes "DELIMITER"⟩, [⟨⟨[], bytes "value"⟩, bytes "0g"⟩]⟩
      = some ([], some (.hexInvalidByte 0x67)) :=
  ⟨parseDelimiterTag_non_hex ⟨⟨[], bytes "DELIMITER"⟩, [⟨⟨[], bytes "value"⟩, bytes "g"⟩]⟩
      ⟨⟨[], bytes "value"⟩, bytes "g"⟩ [] rfl (by decide) ⟨0x67, by decide, by decide⟩,
    by decide⟩

/-- C13, as stated, fails: on an empty first attribute value ParseDelimiterTag
returns no error and the one-byte delimiter of value 0. -/
theorem parseDelimiterTag_empty_counterexample :
    ParseDelimiterTag ⟨⟨[], bytes "DELIMITER"⟩, [⟨⟨[], bytes "value"⟩, bytes ""⟩]⟩
      = some ([0], none) := by
  decide

/-- C13, amended: for a start element whose first attribute value is the empty
string, the value is padded to `00` and ParseDelimiterTag returns, with no
error, the one-byte delimiter of value 0. -/
theorem parseDelimiterTag_empty (start : StartElement) (a : Attr) (rest : List Attr)
    (hattr : start.Attr = a :: rest) (hval : a.Value = []) :
    ParseDelimiterTag start = some ([0], none) := by
  have hzero : fromHexChar 0x30 = some 0 := by decide
  have hpad : Repeat (bytes "0") (2 - ((([] : Str).length : Nat) : Int)) = some [0x30, 0x30] :=
    rfl
  simp only [ParseDelimiterTag, hattr, hval, hpad, DecodeString, List.append_nil,
    hexDecodeLoop, hzero, List.nil_append]
  rfl

/-- C13 amended, at an element with a second attribute after the empty first
one: the delimiter is the byte 0 and there is no error. -/
theorem parseDelimiterTag_empty_witness :
    ParseDelimiterTag
      ⟨⟨[], bytes "DELIMITER"⟩, [⟨⟨[], bytes "value"⟩, []⟩, ⟨⟨[], bytes "other"⟩, bytes "7C"⟩]⟩
      = some ([0], none) :=
  parseDelimiterTag_empty
    ⟨⟨[], bytes "DELIMITER"⟩, [⟨⟨[], bytes "value"⟩, []⟩, ⟨⟨[], bytes "other"⟩, bytes "7C"⟩]⟩
    ⟨⟨[], bytes "value"⟩, []⟩ [⟨⟨[], bytes "other"⟩, bytes "7C"⟩] rfl rfl

/-- C14, the code at the value `0A1`: `strings.Repeat` is called with the
count -1 and ParseDelimiterTag panics; it returns neither the byte `0A` nor an
error. -/
theorem parseDelimiterTag_long_value_panics :
    Repeat (bytes "0") (2 - ((bytes "0A1").length : Int)) = none ∧
    ParseDelimiterTag ⟨⟨[], bytes "DELIMITER"⟩, [⟨⟨[], bytes "value"⟩, bytes "0A1"⟩]⟩ = none := by
  decide

/-- C15. On a decoder that delivers tokens none of which is a start element
named exactly `RETS` and then fails with the read error `e`, ParseRetsResponse
returns no RetsResponse and the error `e` itself; all tokens are consumed. -/
theorem parseRetsResponse_no_envelope (tokens : List Token) (e : GoError)
    (h : ∀ t, Token.StartElement t ∈ tokens → t.Name.Local ≠ bytes "RETS") :
    ParseRetsResponse ⟨tokens, e⟩ = ((none, some e), ⟨[], e⟩) := by
  have := retsLoop_skip e tokens [] h
  simp only [List.append_nil] at this
  simp only [ParseRetsResponse, this, retsLoop]

/-- C15, at a stream with a start element `rets`, character data and an end
element, ending with a read error: that error is returned unchanged. -/
theorem parseRetsResponse_no_envelope_witness :
    ParseRetsResponse
      ⟨[.StartElement ⟨⟨[], bytes "rets"⟩, [⟨⟨[], bytes "ReplyCode"⟩, bytes "0"⟩]⟩,
        .CharData (bytes "x"), .EndElement ⟨[], bytes "rets"⟩], .read 0⟩ =
      ((none, some (.read 0)), ⟨[], .read 0⟩) :=
  parseRetsResponse_no_envelope
    [.StartElement ⟨⟨[], bytes "rets"⟩, [⟨⟨[], bytes "ReplyCode"⟩, bytes "0"⟩]⟩,
      .CharData (bytes "x"), .EndElement ⟨[], bytes "rets"⟩] (.read 0)
    (by
      intro t ht
      simp only [List.mem_cons, Token.StartElement.injEq, List.mem_singleton, reduceCtorEq,
        or_false, List.not_mem_nil] at ht
      rw [ht]
      decide)

/-- C18. On a decoder whose tokens hold a start element named exactly `RETS`,
ParseRetsResponse returns ParseRetsResponseTag applied to the first such
element; the tokens before it are dropped, and the decoder is left with every
token after it unread. -/
theorem parseRetsResponse_first_envelope (pre post : List Token) (t : StartElement)
    (e : GoError)
    (hpre : ∀ s, Token.StartElement s ∈ pre → s.Name.Local ≠ bytes "RETS")
    (ht : t.Name.Local = bytes "RETS") :
    ParseRetsResponse ⟨pre ++ Token.StartElement t :: post, e⟩ =
      (ParseRetsResponseTag t, ⟨post, e⟩) := by
  simp only [ParseRetsResponse, retsLoop_skip e pre _ hpre, retsLoop, if_pos ht]

/-- C18, at a stream with the start elements `rets` and `Rets`, then `RETS`
with reply code 0, then a second `RETS` with reply code 1: the result is read
from the first `RETS` and the second stays unread in the decoder. -/
theorem parseRetsResponse_first_envelope_witness :
    ParseRetsResponse
      ⟨[.StartElement ⟨⟨[], bytes "rets"⟩, []⟩, .StartElement ⟨⟨[], bytes "Rets"⟩, []⟩] ++
        .StartElement ⟨⟨[], bytes "RETS"⟩, [⟨⟨[], bytes "ReplyCode"⟩, bytes "0"⟩]⟩ ::
        [.StartElement ⟨⟨[], bytes "RETS"⟩, [⟨⟨[], bytes "ReplyCode"⟩, bytes "1"⟩]⟩],
        .read 0⟩ =
      (ParseRetsResponseTag ⟨⟨[], bytes "RETS"⟩, [⟨⟨[], bytes "ReplyCode"⟩, bytes "0"⟩]⟩,
        ⟨[.StartElement ⟨⟨[], bytes "RETS"⟩, [⟨⟨[], bytes "ReplyCode"⟩, bytes "1"⟩]⟩],
          .read 0⟩) ∧
    ParseRetsResponseTag ⟨⟨[], bytes "RETS"⟩, [⟨⟨[], bytes "ReplyCode"⟩, bytes "0"⟩]⟩ =
      (some ⟨0, []⟩, none) :=
  ⟨parseRetsResponse_first_envelope
      [.StartElement ⟨⟨[], bytes "rets"⟩, []⟩, .StartElement ⟨⟨[], bytes "Rets"⟩, []⟩]
      [.StartElement ⟨⟨[], bytes "RETS"⟩, [⟨⟨[], bytes "ReplyCode"⟩, bytes "1"⟩]⟩]
      ⟨⟨[], bytes "RETS"⟩, [⟨⟨[], bytes "ReplyCode"⟩, bytes "0"⟩]⟩ (.read 0)
      (by
        intro s hs
        simp only [List.mem_cons, Token.StartElement.injEq, List.mem_singleton,
          List.not_mem_nil, or_false] at hs
        rcases hs with h | h <;> rw [h] <;> decide)
      (by decide),
    by decide⟩

/-- C16. Unconditional drop of the bounding segments: for a one-byte delimiter
`d` and a row with `k ≥ 1` occurrences of `d`, the split of the row has a first
segment, `k - 1` inner segments and a last segment, and ParseCompactRow returns
exactly the inner ones, whatever the first and the last hold. -/
theorem parseCompactRow_drops_bounds (d : Byte) (row : Str) (h : d ∈ row) :
    ∃ first fs last,
      Split row [d] = first :: (fs ++ [last]) ∧
      ParseCompactRow row [d] = some fs ∧
      fs.length + 1 = row.count d := by
  have hlen := length_segments d row
  have hpos : 0 < row.count d := List.count_pos_iff.mpr h
  obtain ⟨first, fs, last, hs⟩ := exists_first_last (segments d row) (by omega)
  have hsplit : Split row [d] = first :: (fs ++ [last]) := by rw [Split_single, hs]
  refine ⟨first, fs, last, hsplit, ParseCompactRow_of_first_last row [d] first last fs hsplit, ?_⟩
  rw [hs] at hlen
  simp only [List.length_cons, List.length_append, List.length_nil] at hlen
  omega

/-- C16, at the delimiter `|`: the row `a|b|c|`, which lacks its leading
delimiter, loses the field `a`, and the row `|a|b|c`, which lacks its trailing
delimiter, loses the field `c`. -/
theorem parseCompactRow_drops_bounds_witness :
    (∃ first fs last,
      Split (bytes "a|b|c|") [0x7C] = first :: (fs ++ [last]) ∧
      ParseCompactRow (bytes "a|b|c|") [0x7C] = some fs ∧
      fs.length + 1 = (bytes "a|b|c|").count 0x7C) ∧
    ParseCompactRow (bytes "a|b|c|") (bytes "|") = some [bytes "b", bytes "c"] ∧
    ParseCompactRow (bytes "|a|b|c") (bytes "|") = some [bytes "a", bytes "b"] :=
  ⟨parseCompactRow_drops_bounds 0x7C (bytes "a|b|c|") (by decide), by decide, by decide⟩

/-- C17. Assembly preserves content and order: for a decoded element with
non-empty COLUMNS whose header and DATA rows all contain the (non-empty)
delimiter, ParseMetadataCompactDecoded returns a record and no error; its
Columns are ParseCompactRow of the header, it has one row per DATA entry, row
`i` is ParseCompactRow of entry `i`, and Version and Date are those of the
element. -/
theorem parseMetadataCompactDecoded_assembly (xme : XMLMetadataElement) (delim : Str)
    (hcols : xme.Columns ≠ []) (hdelim : delim ≠ [])
    (hhead : Index xme.Columns delim ≠ none)
    (hrows : ∀ line ∈ xme.Data, Index line delim ≠ none) :
    ∃ record,
      ParseMetadataCompactDecoded xme none delim = some (some record, none) ∧
      ParseCompactRow xme.Columns delim = some record.Columns ∧
      record.Rows.length = xme.Data.length ∧
      (∀ (i : Nat) (line : Str), xme.Data[i]? = some line →
        ∃ r, record.Rows[i]? = some r ∧ ParseCompactRow line delim = some r) ∧
      record.Version = xme.Version ∧ record.Date = xme.Date := by
  obtain ⟨columns, hc⟩ := ParseCompactRow_isSome_of_Index xme.Columns delim hdelim hhead
  obtain ⟨rs, hr⟩ := extractRows_isSome_of delim xme.Data
    (fun line hm => ParseCompactRow_isSome_of_Index line delim hdelim (hrows line hm))
  have hx : extractMap xme.Columns xme.Data delim =
      some { ID := [], Date := [], Version := [], Columns := columns, Rows := rs } := by
    simp [extractMap, hc, hr]
  have hrec := ParseMetadataCompactDecoded_eq xme delim hcols
  rw [hx] at hrec
  obtain ⟨hlen, hspec⟩ := extractRows_spec delim xme.Data rs hr
  exact ⟨_, hrec, hc, hlen, hspec, rfl, rfl⟩

/-- C17, at the header `|a|b|` and the DATA rows `|1|2|`, `|3|4|` with the
delimiter `|`: the record holds the columns and the two rows in order, with the
version and the date of the element. -/
theorem parseMetadataCompactDecoded_assembly_witness :
    (∃ record,
      ParseMetadataCompactDecoded
        ⟨bytes "Property", [], [], bytes "1.2", bytes "today", bytes "|a|b|",
          [bytes "|1|2|", bytes "|3|4|"]⟩ none (bytes "|") = some (some record, none) ∧
      ParseCompactRow (bytes "|a|b|") (bytes "|") = some record.Columns ∧
      record.Rows.length = 2 ∧
      (∀ (i : Nat) (line : Str), [bytes "|1|2|", bytes "|3|4|"][i]? = some line →
        ∃ r, record.Rows[i]? = some r ∧ ParseCompactRow line (bytes "|") = some r) ∧
      record.Version = bytes "1.2" ∧ record.Date = bytes "today") ∧
    ParseMetadataCompactDecoded
      ⟨bytes "Property", [], [], bytes "1.2", bytes "today", bytes "|a|b|",
        [bytes "|1|2|", bytes "|3|4|"]⟩ none (bytes "|") =
      some (some ⟨bytes "Property", bytes "today", bytes "1.2", [bytes "a", bytes "b"],
        [[bytes "1", bytes "2"], [bytes "3", bytes "4"]]⟩, none) :=
  ⟨parseMetadataCompactDecoded_assembly
      ⟨bytes "Property", [], [], bytes "1.2", bytes "today", bytes "|a|b|",
        [bytes "|1|2|", bytes "|3|4|"]⟩ (bytes "|")
      (by decide) (by decide) (by decide) (by decide),
    by decide⟩

/-- C19. Definedness of the splitter: for a one-byte delimiter `d`,
ParseCompactRow returns a list exactly on the rows that contain `d`; on a row
without `d`, the empty row included, the split is the single segment `[row]`,
the slice bounds are `1 > 0` and the call panics; extractMap panics when the
header or a DATA entry lacks `d`, and so does ParseMetadataCompactDecoded when
COLUMNS is not empty. -/
theorem parseCompactRow_defined_iff (d : Byte) (row : Str) :
    ((ParseCompactRow row [d]).isSome = true ↔ d ∈ row) ∧
    (d ∉ row →
      Split row [d] = [row] ∧ ((Split row [d]).length : Int) - 1 = 0 ∧
      ParseCompactRow row [d] = none) ∧
    (d ∉ row → ∀ cols rows, cols = row ∨ row ∈ rows → extractMap cols rows [d] = none) ∧
    (d ∉ row → ∀ xme : XMLMetadataElement, xme.Columns ≠ [] →
      xme.Columns = row ∨ row ∈ xme.Data → ParseMetadataCompactDecoded xme none [d] = none) := by
  have hmap : d ∉ row → ∀ cols rows, cols = row ∨ row ∈ rows →
      extractMap cols rows [d] = none := by
    intro hd cols rows hor
    have hnone := ParseCompactRow_none_of_not_mem d row hd
    rcases hor with e | e
    · simp [extractMap, e, hnone]
    · have := extractRows_none [d] rows row e hnone
      simp only [extractMap, this]
      cases ParseCompactRow cols [d] <;> rfl
  refine ⟨ParseCompactRow_isSome_iff d row, ?_, hmap, ?_⟩
  · intro hd
    have hs : Split row [d] = [row] := by rw [Split_single, segments_of_not_mem d row hd]
    exact ⟨hs, by simp [hs], ParseCompactRow_none_of_not_mem d row hd⟩
  · intro hd xme hcols hor
    rw [ParseMetadataCompactDecoded_eq xme [d] hcols, hmap hd xme.Columns xme.Data hor]

/-- C19, at the delimiter `|`: the empty row and the row `abc` make the
splitter panic, and the row `a|b` does not. -/
theorem parseCompactRow_defined_iff_witness :
    ParseCompactRow [] (bytes "|") = none ∧
    ParseCompactRow (bytes "abc") (bytes "|") = none ∧
    (ParseCompactRow (bytes "a|b") (bytes "|")).isSome = true ∧
    extractMap (bytes "|a|") [bytes "|x|", bytes "abc"] (bytes "|") = none :=
  ⟨((parseCompactRow_defined_iff 0x7C []).2.1 (by decide)).2.2,
    ((parseCompactRow_defined_iff 0x7C (bytes "abc")).2.1 (by decide)).2.2,
    (parseCompactRow_defined_iff 0x7C (bytes "a|b")).1.mpr (by decide),
    (parseCompactRow_defined_iff 0x7C (bytes "abc")).2.2.1 (by decide) (bytes "|a|")
      [bytes "|x|", bytes "abc"] (Or.inr (by decide))⟩

/-- C20. The legacy splitter and the new one agree on well-formed rows: for a
non-empty list of fields without a tab, whose first and last field are not
empty, and the row `TAB + f1 + TAB + ... + TAB + fn + TAB`, the legacy
extraction `strings.Split(strings.Trim(row, TAB), TAB)` and
`ParseCompactRow(row, TAB)` both give `[f1, ..., fn]`, and so the two
extractMap functions build the same columns and rows. -/
theorem legacy_split_agrees (fields : List Str) (f1 fn : Str)
    (hfirst : fields.head? = some f1) (hlast : fields.getLast? = some fn)
    (h1 : f1 ≠ []) (hn : fn ≠ []) (hfree : ∀ f ∈ fields, (9 : Byte) ∉ f) :
    Split (Trim (compactRow 9 fields) Metadata.delim) Metadata.delim = fields ∧
    ParseCompactRow (compactRow 9 fields) Metadata.delim = some fields ∧
    Metadata.extractMap (compactRow 9 fields) [compactRow 9 fields] =
      ⟨[], [], fields, [fields]⟩ ∧
    extractMap (compactRow 9 fields) [compactRow 9 fields] Metadata.delim =
      some ⟨[], [], [], fields, [fields]⟩ := by
  have hdelim : Metadata.delim = [9] := rfl
  have hne : fields ≠ [] := by
    intro e
    simp [e] at hfirst
  have hf1 : (9 : Byte) ∉ f1 := hfree f1 (List.mem_of_mem_head? hfirst)
  have hfn : (9 : Byte) ∉ fn := hfree fn (List.mem_of_mem_getLast? hlast)
  obtain ⟨c, tl, hb1, hc⟩ := joinFields_head 9 fields f1 hfirst h1 hf1
  obtain ⟨init, c2, hb2, hc2⟩ := joinFields_last 9 fields fn hlast hn hfn
  have hrow : compactRow 9 fields = 9 :: (joinFields 9 fields ++ [9]) := by
    simp only [compactRow, flatMap_eq_joinFields 9 fields hne]
  have htrim : Trim (compactRow 9 fields) [9] = joinFields 9 fields := by
    rw [hrow]
    exact Trim_bounded 9 c c2 tl init _ hb1 hb2 hc hc2
  have hlegacy : Split (Trim (compactRow 9 fields) [9]) [9] = fields := by
    rw [htrim, Split_single, segments_joinFields 9 fields hne hfree]
  have hnew : ParseCompactRow (compactRow 9 fields) [9] = some fields := by
    have hseg : segments 9 (compactRow 9 fields) = [] :: (fields ++ [[]]) := by
      have := segments_append_sep 9 [] (fields.flatMap (fun f => f ++ [9])) (by simp)
      simpa [compactRow, segments_flatMap 9 fields hfree] using this
    exact ParseCompactRow_of_first_last _ [9] [] [] fields (by rw [Split_single, hseg])
  rw [hdelim]
  refine ⟨hlegacy, hnew, ?_, ?_⟩
  · simp only [Metadata.extractMap, hdelim, hlegacy, List.map_cons, List.map_nil]
  · simp only [extractMap, extractRows, hnew]

/-- C20, at the row `TAB a TAB TAB b TAB` with the fields `a`, the empty field
and `b`: both splitters give these three fields. -/
theorem legacy_split_agrees_witness :
    compactRow 9 [bytes "a", [], bytes "b"] = bytes "\ta\t\tb\t" ∧
    Split (Trim (bytes "\ta\t\tb\t") Metadata.delim) Metadata.delim =
      [bytes "a", [], bytes "b"] ∧
    ParseCompactRow (bytes "\ta\t\tb\t") Metadata.delim = some [bytes "a", [], bytes "b"] :=
  ⟨by decide,
    (legacy_split_agrees [bytes "a", [], bytes "b"] (bytes "a") (bytes "b")
      (by decide) (by decide) (by decide) (by decide) (by decide)).1,
    (legacy_split_agrees [bytes "a", [], bytes "b"] (bytes "a") (bytes "b")
      (by decide) (by decide) (by decide) (by decide) (by decide)).2.1⟩

end Client

end Gorets
